import Mathlib

/-!
# Verification of the progressive small progress measures parity solver

A shallow embedding of `ProgressiveSmallProgressMeasuresSolver` from
`src/libggg/parity/solvers/progressive_small_progress_measures` (the
translation unit also containing the Buechi attractor solver).  The C++
member arrays (`pms`, `strategy`, `counts`, `tmp`, `best`, `dirty`,
`unstable`) become total functions `Nat → Int`; the flat measure buffer
addressed as `pms.data() + k*node` becomes a per-node measure function
`pms : Nat → Nat → Int` (the per-node slices of the flat buffer are
disjoint).  The FIFO worklist `todo` becomes a list (push at the back,
pop at the front).  `std::vector` storage is value-initialized, so a
freshly constructed solver has all arrays zero and an empty queue.
Loops that the C++ runs until a data-dependent condition (the main
worklist loop and the stabilization pass's inner propagation queue) are
given explicit fuel and return `none` when the fuel runs out; every
other loop is structural.
-/

namespace GGG

/-- Pointwise update of a total array model. -/
def upd {α : Type} (f : Nat → α) (i : Nat) (v : α) : Nat → α :=
  fun j => if j = i then v else f j

/-- The parity game graph as the solver consumes it (spec §6): a fixed
vertex enumeration `0..n-1`, per-vertex owner and priority, and the
out-edge target lists in enumeration order.  `vertex_to_node` /
`node_to_vertex` in the source are the enumeration bijection, so nodes
and vertices are identified. -/
structure Game where
  n : Nat
  owner : Nat → Nat
  priority : Nat → Nat
  adj : Nat → List Nat

/-- The solver's mutable member state. -/
structure St where
  k : Nat
  pms : Nat → Nat → Int
  strategy : Nat → Int
  counts : Nat → Int
  tmp : Nat → Int
  best : Nat → Int
  dirty : Nat → Int
  unstable : Nat → Int
  todo : List Nat
  liftCount : Int
  liftAttempt : Int

/-! ## The progress measure lattice: `pm_less`, `pm_copy`, `prog` -/

/-- The descending coordinate scan of `pm_less`:
`for (int i = start; i >= d; i -= 2) { if (a[i]==b[i]) continue;
 if (a[i] > counts[i] && b[i] > counts[i]) return false; return a[i] < b[i]; }
 return false;` (the C++ index is a signed int, so stepping below 2 ends
the loop). -/
def pm_lessAt (counts a b : Nat → Int) (d i : Nat) (rest : Bool) : Bool :=
  if i < d then false
  else if a i = b i then rest
  else if a i > counts i ∧ b i > counts i then false
  else decide (a i < b i)

/-- The descending scan, by structural recursion on the start index (the
indices `0` and `1` are the last ones a C++ signed loop index can visit). -/
def pm_lessLoop (counts a b : Nat → Int) (d : Nat) : Nat → Bool
  | 0 => pm_lessAt counts a b d 0 false
  | 1 => pm_lessAt counts a b d 1 false
  | i + 2 => pm_lessAt counts a b d (i + 2) (pm_lessLoop counts a b d i)

/-- `pm_less(a, b, d, pl)`: is measure `a` strictly below `b` for player
`pl` at cutoff priority `d`?  `-1` (`TOP`) at the sentinel coordinate
`pl` dominates; otherwise the player's coordinates are compared from
`start` (the highest index of parity `pl` below `k`) down to `d`. -/
def pm_less (counts : Nat → Int) (k : Nat) (a b : Nat → Int) (d pl : Nat) : Bool :=
  if b pl = -1 then decide (a pl ≠ -1)
  else if a pl = -1 then false
  else pm_lessLoop counts a b d (if k % 2 = pl then k - 2 else k - 1)

/-- `pm_copy(dst, src, pl)`: `for (int i = pl; i < k; i += 2) dst[i] = src[i];`.
The written indices are independent, so the loop is embedded as the
pointwise overwrite of exactly those indices. -/
def pm_copy (dst src : Nat → Int) (k pl : Nat) : Nat → Int :=
  fun j => if pl ≤ j ∧ j < k ∧ (j - pl) % 2 = 0 then src j else dst j

/-- The ascending index sequence `i, i+2, i+4, …` strictly below `bound`:
the trace of a C++ `for (; i < bound; i += 2)` loop. -/
def upBy2 (bound i : Nat) : List Nat :=
  (List.range bound).filter (fun j => i ≤ j ∧ (j - i) % 2 = 0)

/-- The zeroing loop of `prog` (`int i = pl; for (; i < d; i += 2) dst[i] = 0;`)
writes independent indices: embedded pointwise. -/
def progReset (dst : Nat → Int) (d pl : Nat) : Nat → Int :=
  fun j => if pl ≤ j ∧ j < d ∧ (j - pl) % 2 = 0 then 0 else dst j

/-- The index at which the zeroing loop of `prog` exits: the first index
`≥ d` of the arithmetic sequence `pl, pl+2, …`. -/
def firstGE (pl d : Nat) : Nat :=
  if d ≤ pl then pl else (if d % 2 = pl % 2 then d else d + 1)

/-- The carry loop of `prog`, over its trace of visited coordinates:
`{ int v = src[i] + carry; if (v > counts[i]) { dst[i] = 0; carry = 1; }
else { dst[i] = v; carry = 0; } }`.  Returns the written array together
with the final carry. -/
def progCarry (counts src : Nat → Int) : List Nat → (Nat → Int) → Int → (Nat → Int) × Int
  | [], dst, carry => (dst, carry)
  | i :: rest, dst, carry =>
      if src i + carry > counts i then progCarry counts src rest (upd dst i 0) 1
      else progCarry counts src rest (upd dst i (src i + carry)) 0

/-- `prog(dst, src, d, pl)`: the progression operator.  If `src`'s player-`pl`
counter is `TOP` only the sentinel is written; otherwise the coordinates of
parity `pl` below `d` are zeroed, the remaining ones (from the zeroing
loop's exit index up to `k`) get the mixed-radix carry propagation, and a
remaining carry saturates the sentinel to `TOP`. -/
def prog (counts : Nat → Int) (k : Nat) (dst src : Nat → Int) (d pl : Nat) : Nat → Int :=
  if src pl = -1 then upd dst pl (-1)
  else
    let c := progCarry counts src (upBy2 k (firstGE pl d)) (progReset dst d pl)
      (if d % 2 = pl then 1 else 0)
    if c.2 ≠ 0 then upd c.1 pl (-1) else c.1

/-! ## The lifting engine: `canlift`, `lift` -/

/-- The out-edge scan of `canlift` for the owning player: each target is
progressed into `tmp` and compared; the first strict improvement returns
`true` (the scratch array `tmp` keeps the value it had at the early
return, so it is threaded through). -/
def canliftOwnerLoop (counts : Nat → Int) (k : Nat) (pm : Nat → Int) (d pl : Nat)
    (pms : Nat → Nat → Int) : List Nat → (Nat → Int) → Bool × (Nat → Int)
  | [], tmp => (false, tmp)
  | t :: rest, tmp =>
      let tmp' := prog counts k tmp (pms t) d pl
      if pm_less counts k pm tmp' d pl then (true, tmp')
      else canliftOwnerLoop counts k pm d pl pms rest tmp'

/-- The minimizing out-edge scan shared by `canlift`, the opponent attempt
of `lift` and the stabilization pass: progress every target into `tmp`,
keep the smallest result in `best` (`for (int i = 0; i < k; i++) best[i] = tmp[i];`)
and remember it as `best_to`.  Returns the final `tmp`, `best` and `best_to`. -/
def minProgLoop (counts : Nat → Int) (k : Nat) (d pl : Nat) (pms : Nat → Nat → Int) :
    List Nat → (Nat → Int) → (Nat → Int) → Int → (Nat → Int) × (Nat → Int) × Int
  | [], tmp, best, bestTo => (tmp, best, bestTo)
  | t :: rest, tmp, best, bestTo =>
      let tmp' := prog counts k tmp (pms t) d pl
      if bestTo = -1 ∨ pm_less counts k tmp' best d pl then
        minProgLoop counts k d pl pms rest tmp' (fun i => if i < k then tmp' i else best i)
          (Int.ofNat t)
      else minProgLoop counts k d pl pms rest tmp' best bestTo

/-- `canlift(node, pl)`: check-only mode of the owner rule — could `node`'s
player-`pl` counter still be raised?  Mutates only the scratch arrays. -/
def canlift (g : Game) (s : St) (node pl : Nat) : St × Bool :=
  if s.pms node pl = -1 then (s, false)
  else
    let d := g.priority node
    if g.owner node = pl then
      let r := canliftOwnerLoop s.counts s.k (s.pms node) d pl s.pms (g.adj node) s.tmp
      ({ s with tmp := r.2 }, r.1)
    else
      let r := minProgLoop s.counts s.k d pl s.pms (g.adj node) s.tmp s.best (-1)
      let s' := { s with tmp := r.1, best := r.2.1 }
      if r.2.2 = -1 then (s', false)
      else (s', pm_less s.counts s.k (s.pms node) r.2.1 d pl)

/-- The owner-progress scan of `lift` without a hint: the measure of `node`
is raised in place whenever a progressed successor strictly exceeds it, so
later comparisons see the already-raised measure; a self-loop reads the
raised measure too, which is why the whole `pms` map is threaded.  Returns
the new `pms`, `tmp` and the last adopted target (`-1` when none). -/
def liftOwnerLoop (counts : Nat → Int) (k : Nat) (node d pl : Nat) :
    List Nat → (Nat → Nat → Int) → (Nat → Int) → Int →
      (Nat → Nat → Int) × (Nat → Int) × Int
  | [], pms, tmp, bch => (pms, tmp, bch)
  | t :: rest, pms, tmp, bch =>
      let tmp' := prog counts k tmp (pms t) d pl
      if pm_less counts k (pms node) tmp' d pl then
        liftOwnerLoop counts k node d pl rest
          (upd pms node (pm_copy (pms node) tmp' k pl)) tmp' (Int.ofNat t)
      else liftOwnerLoop counts k node d pl rest pms tmp' bch

/-- The owner-progress attempt of `lift` (`if (pm[pl_max] != -1) …`):
restricted to the hinted target when one is given, otherwise the full
out-edge scan.  Returns the new `pms`, the new `tmp` and the flag
`best_ch` of the owner's player (`-1` when no raise was adopted). -/
def liftOwnerAttempt (g : Game) (s : St) (node : Nat) (target : Int) :
    (Nat → Nat → Int) × (Nat → Int) × Int :=
  if s.pms node (g.owner node) = -1 then (s.pms, s.tmp, -1)
  else if target ≠ -1 then
    let tmp' := prog s.counts s.k s.tmp (s.pms target.toNat) (g.priority node) (g.owner node)
    if pm_less s.counts s.k (s.pms node) tmp' (g.priority node) (g.owner node) then
      (upd s.pms node (pm_copy (s.pms node) tmp' s.k (g.owner node)), tmp', target)
    else (s.pms, tmp', -1)
  else
    liftOwnerLoop s.counts s.k node (g.priority node) (g.owner node) (g.adj node)
      s.pms s.tmp (-1)

/-- The opponent-consistency attempt of `lift`
(`if (pm[pl_min] != -1 && (target == -1 || target == strategy[node])) …`),
run on the measures `pms1` and scratch `tmp1` left by the owner attempt.
Returns the new `pms`, `tmp`, `best`, `strategy` and the flag `best_ch`
of the opponent's player. -/
def liftOppAttempt (g : Game) (s : St) (node : Nat) (target : Int)
    (pms1 : Nat → Nat → Int) (tmp1 : Nat → Int) :
    (Nat → Nat → Int) × (Nat → Int) × (Nat → Int) × (Nat → Int) × Int :=
  if pms1 node (1 - g.owner node) ≠ -1 ∧ (target = -1 ∨ target = s.strategy node) then
    let r := minProgLoop s.counts s.k (g.priority node) (1 - g.owner node) pms1
      (g.adj node) tmp1 s.best (-1)
    let strat' := upd s.strategy node r.2.2
    if pm_less s.counts s.k (pms1 node) r.2.1 (g.priority node) (1 - g.owner node) then
      (upd pms1 node (pm_copy (pms1 node) r.2.1 s.k (1 - g.owner node)),
        r.1, r.2.1, strat', r.2.2)
    else (pms1, r.1, r.2.1, strat', -1)
  else (pms1, tmp1, s.best, s.strategy, -1)

/-- `lift(node, target)`: attempt to raise `node`'s measure.  Both-`TOP`
states return `false` at once.  The owner attempt runs when the owner's
counter is live (restricted to `target` when a hint is given); the
opponent attempt runs when the opponent's counter is live and the hint is
absent or equals the recorded strategy, re-recording `strategy[node]`
unconditionally.  A counter newly raised to `TOP` decrements
`counts[priority]` when the priority's parity matches that player.
Returns the new state and whether any counter was raised. -/
def lift (g : Game) (s : St) (node : Nat) (target : Int) : St × Bool :=
  if s.pms node 0 = -1 ∧ s.pms node 1 = -1 then (s, false)
  else
    let o := liftOwnerAttempt g s node target
    let m := liftOppAttempt g s node target o.1 o.2.1
    let bch0 : Int := if g.owner node = 0 then o.2.2 else m.2.2.2.2
    let bch1 : Int := if g.owner node = 0 then m.2.2.2.2 else o.2.2
    let d := g.priority node
    let counts1 :=
      if bch0 ≠ -1 ∧ m.1 node 0 = -1 ∧ d % 2 = 0 then upd s.counts d (s.counts d - 1)
      else s.counts
    let counts2 :=
      if bch1 ≠ -1 ∧ m.1 node 1 = -1 ∧ d % 2 = 1 then upd counts1 d (counts1 d - 1)
      else counts1
    let lifted := bch0 ≠ -1 ∨ bch1 ≠ -1
    ({ s with
        pms := m.1
        strategy := m.2.2.2.1
        tmp := m.2.1
        best := m.2.2.1
        counts := counts2
        liftCount := if lifted then s.liftCount + 1 else s.liftCount
        liftAttempt := if lifted then s.liftAttempt else s.liftAttempt + 1 },
      lifted)

/-! ## The worklist scheduler -/

/-- `todo_push(node)`: enqueue unless the dirty bit is already set. -/
def todo_push (s : St) (node : Nat) : St :=
  if s.dirty node = 0 then
    { s with dirty := upd s.dirty node 1, todo := s.todo ++ [node] }
  else s

/-! ## The stabilization pass: `update` -/

/-- Seeding loop of `update(pl)`, over the vertex enumeration: clear
`unstable[i]`, then mark and enqueue `i` when its player-`pl` counter is
`TOP` or `canlift(i, pl)` holds (short-circuit: `canlift` only runs on a
live counter, and on a live counter its own first check is passed). -/
def updateSeedLoop (g : Game) (pl : Nat) : List Nat → St → List Nat → St × List Nat
  | [], s, q => (s, q)
  | i :: is, s, q =>
      let s0 := { s with unstable := upd s.unstable i 0 }
      if s0.pms i pl = -1 then
        updateSeedLoop g pl is { s0 with unstable := upd s0.unstable i 1 } (q ++ [i])
      else
        let r := canlift g s0 i pl
        if r.2 then
          updateSeedLoop g pl is { r.1 with unstable := upd r.1.unstable i 1 } (q ++ [i])
        else updateSeedLoop g pl is r.1 q

/-- One predecessor examination in the propagation of `update(pl)`: a
stable vertex `m` not owned by `pl` recomputes its minimal progression
over its *stable* successors; if none remains, or its measure can still
be raised from them, it stays stable, otherwise it turns unstable and is
enqueued on the secondary queue. -/
def updatePropBody (g : Game) (pl : Nat) (m : Nat) (s : St) (q : List Nat) :
    St × List Nat :=
  if s.unstable m ≠ 0 then (s, q)
  else if g.owner m ≠ pl then
    let d := g.priority m
    let succs := (g.adj m).filter (fun t => s.unstable t = 0)
    let r := minProgLoop s.counts s.k d pl s.pms succs s.tmp s.best (-1)
    let s' := { s with tmp := r.1, best := r.2.1 }
    if r.2.2 = -1 then (s', q)
    else if pm_less s.counts s.k (s.pms m) r.2.1 d pl then (s', q)
    else ({ s' with unstable := upd s'.unstable m 1 }, q ++ [m])
  else (s, q)

/-- Scan the out-edges of one candidate predecessor `u` for occurrences of
the popped vertex `n`. -/
def updatePropEdges (g : Game) (pl : Nat) (n u : Nat) :
    List Nat → St → List Nat → St × List Nat
  | [], s, q => (s, q)
  | t :: ts, s, q =>
      if t = n then
        let r := updatePropBody g pl u s q
        updatePropEdges g pl n u ts r.1 r.2
      else updatePropEdges g pl n u ts s q

/-- Scan every vertex `u` in enumeration order for edges into the popped
vertex `n` (the graph-reversed edge scan of the source). -/
def updatePropScan (g : Game) (pl : Nat) (n : Nat) :
    List Nat → St → List Nat → St × List Nat
  | [], s, q => (s, q)
  | u :: us, s, q =>
      let r := updatePropEdges g pl n u (g.adj u) s q
      updatePropScan g pl n us r.1 r.2

/-- The secondary worklist loop of `update(pl)`, with fuel for the
data-dependent termination. -/
def updatePropLoop (g : Game) (pl : Nat) : Nat → St → List Nat → Option St
  | 0, _, _ => none
  | fuel + 1, s, q =>
      match q with
      | [] => some s
      | n :: rest =>
          let r := updatePropScan g pl n (List.range g.n) s rest
          updatePropLoop g pl fuel r.1 r.2

/-- The demotion loop closing `update(pl)`, over the vertex enumeration:
every vertex left stable whose opposing counter is live and whose
priority parity disagrees with `pl` has `counts[priority]` decremented,
its opposing counter written to `TOP` and is pushed on the main worklist. -/
def updateFinalLoop (g : Game) (pl : Nat) : List Nat → St → St
  | [], s => s
  | i :: is, s =>
      if s.unstable i = 0 ∧ s.pms i (1 - pl) ≠ -1 ∧ g.priority i % 2 ≠ pl then
        updateFinalLoop g pl is (todo_push
          { s with
              counts := upd s.counts (g.priority i) (s.counts (g.priority i) - 1)
              pms := upd s.pms i (upd (s.pms i) (1 - pl) (-1)) } i)
      else updateFinalLoop g pl is s

/-- `update(pl)`: the stabilization pass — seed the unstable set, close it
backwards along edges, then demote what stayed stable. -/
def update (g : Game) (pl : Nat) (fuel : Nat) (s : St) : Option St :=
  let r := updateSeedLoop g pl (List.range g.n) s []
  match updatePropLoop g pl fuel r.1 r.2 with
  | none => none
  | some s1 => some (updateFinalLoop g pl (List.range g.n) s1)

/-! ## Initialization and the main fixpoint loop -/

/-- Modelled from the spec: `get_max_priority` of
`libggg/graphs/priority_utilities.hpp` is not among the sources; per §3 it
yields `d_max`, the maximum priority occurring in the graph (taken as `0`
for the empty graph, where the value is never used). -/
def get_max_priority (g : Game) : Nat :=
  (List.range g.n).foldl (fun m v => max m (g.priority v)) 0

/-- `init` plus the re-initialization prologue of `solve`: fix `k`, zero
the measures, reset strategies, tally `counts` from the priorities, clear
the dirty bits and the statistics.  `std::vector::resize` keeps existing
entries, so the scratch arrays `tmp`, `best`, `unstable` and the (empty)
queue persist from the previous run of the same solver object. -/
def resetState (g : Game) (s : St) : St :=
  let k := max (get_max_priority g + 1) 2
  { s with
      k := k
      pms := fun v i => if v < g.n ∧ i < k then 0 else s.pms v i
      strategy := fun v => if v < g.n then -1 else s.strategy v
      counts :=
        (List.range g.n).foldl
          (fun c v => upd c (g.priority v) (c (g.priority v) + 1))
          (fun i => if i < k then 0 else s.counts i)
      dirty := fun v => if v < g.n then 0 else s.dirty v
      liftCount := 0
      liftAttempt := 0 }

/-- The graph-reversed relaxation of one vertex `n`: for every vertex `u`
in order and every out-edge occurrence `u → n`, call `lift(u, n)` and push
`u` when it succeeded.  This scan is shared verbatim by the seeding phase
and the main loop of `solve`. -/
def relaxPredsEdges (g : Game) (n u : Nat) : List Nat → St → St
  | [], s => s
  | t :: ts, s =>
      if t = n then
        let r := lift g s u (Int.ofNat n)
        relaxPredsEdges g n u ts (if r.2 then todo_push r.1 u else r.1)
      else relaxPredsEdges g n u ts s

/-- Scan all candidate predecessors `u` of `n` in enumeration order. -/
def relaxPreds (g : Game) (n : Nat) : List Nat → St → St
  | [], s => s
  | u :: us, s => relaxPreds g n us (relaxPredsEdges g n u (g.adj u) s)

/-- The seeding pass of `solve`: `for (int n = num_vertices - 1; n >= 0; n--)`,
`lift(n, -1)` and, on success, relax the predecessors of `n`.
`initLoop g i s` processes the vertices `i-1, i-2, …, 0`. -/
def initLoop (g : Game) : Nat → St → St
  | 0, s => s
  | i + 1, s =>
      let r := lift g s i (-1)
      initLoop g i (if r.2 then relaxPreds g i (List.range g.n) r.1 else r.1)

/-- The main worklist loop: pop a vertex, clear its dirty bit, relax its
predecessors, and run the two stabilization passes whenever more than
`10·|V|` lifts accumulated since the last pass.  `fuel` bounds the number
of iterations, `ufuel` the propagation queue inside each `update`. -/
def mainLoop (g : Game) (ufuel : Nat) : Nat → Int → St → Option St
  | 0, _, s => if s.todo = [] then some s else none
  | fuel + 1, lastUpdate, s =>
      match s.todo with
      | [] => some s
      | n :: rest =>
          let s0 := { s with todo := rest, dirty := upd s.dirty n 0 }
          let s1 := relaxPreds g n (List.range g.n) s0
          if lastUpdate + 10 * (g.n : Int) < s1.liftCount then
            match update g 0 ufuel s1 with
            | none => none
            | some s2 =>
                match update g 1 ufuel s2 with
                | none => none
                | some s3 => mainLoop g ufuel fuel s1.liftCount s3
          else mainLoop g ufuel fuel lastUpdate s1

/-- `solve` up to (but excluding) the result extraction: returns the
converged solver state.  `none` only when the fuel ran out. -/
def solveState (g : Game) (fuel ufuel : Nat) (s0 : St) : Option St :=
  mainLoop g ufuel fuel 0 (initLoop g g.n (resetState g s0))

/-- A freshly constructed solver object: value-initialized vectors and an
empty queue. -/
def freshState : St where
  k := 0
  pms := fun _ _ => 0
  strategy := fun _ => 0
  counts := fun _ => 0
  tmp := fun _ => 0
  best := fun _ => 0
  dirty := fun _ => 0
  unstable := fun _ => 0
  todo := []
  liftCount := 0
  liftAttempt := 0

/-- `solve` on a freshly constructed solver. -/
def solveFresh (g : Game) (fuel ufuel : Nat) : Option St :=
  solveState g fuel ufuel freshState

/-! ## The result extractor -/

/-- `int winner = pm[0] == -1 ? 0 : 1;` -/
def winnerOf (s : St) (v : Nat) : Nat :=
  if s.pms v 0 = -1 then 0 else 1

/-- The winning-region map of the returned `RSSolution`: one entry per
vertex, in enumeration order. -/
def solutionWinners (g : Game) (s : St) : List (Nat × Nat) :=
  (List.range g.n).map (fun v => (v, winnerOf s v))

/-- The strategy map of the returned `RSSolution`:
`if ((*pv)[vertex].player == winner && strategy[node] != -1) set_strategy(...)`. -/
def solutionStrategy (g : Game) (s : St) (v : Nat) : Option Nat :=
  if g.owner v = winnerOf s v ∧ s.strategy v ≠ -1 then some (s.strategy v).toNat
  else none

/-! ## Reference definitions from the specification text

These definitions follow the wording of the specification (§3, §4.1,
§4.4) rather than the source; the theorems below compare them with the
embedded source functions. -/

/-- The coordinate comparison as the specification's §3 ordering words it:
scan the player's coordinates from the highest down to `d`; the first
differing coordinate decides, except that a coordinate where both values
exceed their `counts` bound is treated as equal (deciding nothing) and
the scan proceeds downward. -/
def pm_lessSpecAt (counts a b : Nat → Int) (d i : Nat) (rest : Bool) : Bool :=
  if i < d then false
  else if a i = b i ∨ (a i > counts i ∧ b i > counts i) then rest
  else decide (a i < b i)

/-- The specified scan, by structural recursion on the start index. -/
def pm_lessSpecLoop (counts a b : Nat → Int) (d : Nat) : Nat → Bool
  | 0 => pm_lessSpecAt counts a b d 0 false
  | 1 => pm_lessSpecAt counts a b d 1 false
  | i + 2 => pm_lessSpecAt counts a b d (i + 2) (pm_lessSpecLoop counts a b d i)

/-- The §3 ordering as specified: `TOP` dominates, otherwise the
treat-both-over-capacity-as-equal lexicographic scan. -/
def pm_lessSpec (counts : Nat → Int) (k : Nat) (a b : Nat → Int) (d pl : Nat) : Bool :=
  if b pl = -1 then decide (a pl ≠ -1)
  else if a pl = -1 then false
  else pm_lessSpecLoop counts a b d (if k % 2 = pl then k - 2 else k - 1)

/-- The descending index list `i, i-2, i-4, …` stopping before `d`
(and at the bottom of the index range). -/
def downBy2 (d : Nat) : Nat → List Nat
  | 0 => if 0 < d then [] else [0]
  | 1 => if 1 < d then [] else [1]
  | i + 2 => if i + 2 < d then [] else (i + 2) :: downBy2 d i

/-- What the comparison actually computes (the amended §3 ordering): the
first differing coordinate of the descending scan always decides — as
"not less" when both values exceed their `counts` bound there, and by
`a i < b i` otherwise; lower coordinates are never consulted. -/
def pm_lessAmended (counts : Nat → Int) (k : Nat) (a b : Nat → Int) (d pl : Nat) : Bool :=
  if b pl = -1 then decide (a pl ≠ -1)
  else if a pl = -1 then false
  else
    match (downBy2 d (if k % 2 = pl then k - 2 else k - 1)).find? (fun j => a j != b j) with
    | none => false
    | some j => if a j > counts j ∧ b j > counts j then false else decide (a j < b j)

/-- The mixed-radix carry chain as §4.1 words it, along an ascending list
of the player's coordinates: at each coordinate the incoming carry is
added; if the sum exceeds `counts[coordinate]` that coordinate becomes 0
and carry 1 continues, else the sum is kept and the carry stops.
Returns the coordinate values and the remaining carry. -/
def mixedRadixAdd (counts src : Nat → Int) : List Nat → Int → List Int × Int
  | [], carry => ([], carry)
  | i :: rest, carry =>
      if src i + carry > counts i then
        let r := mixedRadixAdd counts src rest 1
        (0 :: r.1, r.2)
      else
        let r := mixedRadixAdd counts src rest 0
        ((src i + carry) :: r.1, r.2)

/-- The player-`pl` counter a measure array denotes: `none` (`TOP`) when
the sentinel coordinate holds `-1`, otherwise the values of the player's
coordinates below `k`, in ascending order. -/
def pmObs (k pl : Nat) (a : Nat → Int) : Option (List Int) :=
  if a pl = -1 then none else some ((upBy2 k pl).map a)

/-- The reference result of the progression operator, following the
claim's wording: `TOP` propagates; otherwise every player coordinate
strictly below `d` is 0, from the first player coordinate `≥ d` on the
values are the mixed-radix sum with initial carry 1 iff `d mod 2 = p`,
and a remaining carry after the highest coordinate makes the result
`TOP`. -/
def progSpecObs (counts : Nat → Int) (k : Nat) (src : Nat → Int) (d pl : Nat) :
    Option (List Int) :=
  if src pl = -1 then none
  else
    let r := mixedRadixAdd counts src (upBy2 k (firstGE pl d)) (if d % 2 = pl then 1 else 0)
    if r.2 ≠ 0 then none
    else some (((upBy2 d pl).map (fun _ => 0)) ++ r.1)

/-- The books-balance invariant of the shrinking-bound optimization
(§4.1): `counts[i]` equals the number of vertices of priority `i` whose
player-`(i mod 2)` counter is not `TOP`. -/
def countsInv (g : Game) (s : St) : Prop :=
  ∀ i < s.k, s.counts i =
    ((Finset.range g.n).filter (fun v => g.priority v = i ∧ s.pms v (i % 2) ≠ -1)).card

/-- Two states agreeing on the data `countsInv` reads. -/
def sameCore (s s' : St) : Prop :=
  s'.k = s.k ∧ s'.counts = s.counts ∧ s'.pms = s.pms

/-- The strategy bookkeeping invariant, parameterized by the seeding
frontier `m`: every strategy entry is `-1` or a recorded out-edge target,
every vertex at or above the frontier already has a recorded target, and
every vertex below the frontier still has its opponent counter live
unless its target is already recorded. -/
def stratInv (g : Game) (m : Nat) (s : St) : Prop :=
  ∀ v, v < g.n →
    ((s.strategy v = -1 ∨ ∃ t ∈ g.adj v, s.strategy v = Int.ofNat t) ∧
     (m ≤ v → s.strategy v ≠ -1) ∧
     (s.pms v (1 - g.owner v) ≠ -1 ∨ s.strategy v ≠ -1))

/-- Observational equality of one player's view of a measure slice: the
two arrays are both `TOP` at the sentinel, or they agree on every
player-`pl` coordinate below `k`.  The solver never reads the other
coordinates of the slice (a `TOP`-saturating `pm_copy` fills them with
scratch residue). -/
def obsEq (k pl : Nat) (a b : Nat → Int) : Prop :=
  (a pl = -1 ∧ b pl = -1) ∨ ∀ j, j < k → j % 2 = pl → a j = b j

/-- Observational equality of two solver states over a game: agreement on
everything the algorithm's control and output depend on — `k`, the
per-player measure views, `strategy`, the live `counts` window, the dirty
bits, the queue (whose members stay in range) and the lift counter.  The
scratch arrays `tmp`, `best` and `unstable` are unconstrained. -/
def ObsSt (g : Game) (s s' : St) : Prop :=
  s'.k = s.k ∧ 2 ≤ s.k ∧
  (∀ v, v < g.n → ∀ pl, pl < 2 → obsEq s.k pl (s.pms v) (s'.pms v)) ∧
  (∀ v, v < g.n → s'.strategy v = s.strategy v) ∧
  (∀ j, j < s.k → s'.counts j = s.counts j) ∧
  (∀ v, v < g.n → s'.dirty v = s.dirty v) ∧
  s'.todo = s.todo ∧ (∀ x ∈ s.todo, x < g.n) ∧
  s'.liftCount = s.liftCount

/-! ## Concrete instances -/

/-- A one-vertex game: a self-loop of priority 1 owned by player 0. -/
def gLoop1 : Game where
  n := 1
  owner := fun _ => 0
  priority := fun _ => 1
  adj := fun _ => [0]

/-- A one-vertex game: a self-loop of priority 0 owned by player 0
(player 0 wins it, so its strategy entry ends up defined). -/
def gLoop0 : Game where
  n := 1
  owner := fun _ => 0
  priority := fun _ => 0
  adj := fun _ => [0]

/-- A solver object carrying arbitrary residue in every scratch array and
statistic that a previous run could have left behind (the queue is empty,
as it is whenever `solve` returns). -/
def sScratch : St :=
  { freshState with
      tmp := fun _ => 5
      best := fun _ => 7
      unstable := fun _ => 3
      liftAttempt := 4 }

/-- A one-vertex game with no out-edges (violating the out-degree ≥ 1
precondition of §6). -/
def gNoEdge : Game where
  n := 1
  owner := fun _ => 0
  priority := fun _ => 0
  adj := fun _ => []

/-- The empty game. -/
def gEmpty : Game where
  n := 0
  owner := fun _ => 0
  priority := fun _ => 0
  adj := fun _ => []

/-- A state in which vertex 0 has both per-player counters at `TOP`. -/
def sBothTop : St :=
  { freshState with k := 2, pms := fun _ _ => -1 }

/-- First comparison operand for the ordering counterexample. -/
def aCmp : Nat → Int := fun i => [0, 0, 1, 0].getD i 0

/-- Second comparison operand for the ordering counterexample. -/
def bCmp : Nat → Int := fun i => [1, 0, 2, 0].getD i 0

/-- All-zero `counts`, making coordinate values `1` and `2` exceed the bound. -/
def cCmp : Nat → Int := fun _ => 0

/-! # Theorems -/

@[simp] theorem upd_same {α : Type} (f : Nat → α) (i : Nat) (v : α) : upd f i v i = v := by
  simp [upd]

@[simp] theorem upd_ne {α : Type} (f : Nat → α) (i j : Nat) (v : α) (h : j ≠ i) :
    upd f i v j = f j := by
  simp [upd, h]

/-! ## C4: the coordinate comparison -/

/-- The scanning loop of the source's `pm_less` agrees with the
first-differing-coordinate formulation `pm_lessAmended` uses. -/
theorem pm_lessLoop_eq_find (counts a b : Nat → Int) (d : Nat) (i : Nat) :
    pm_lessLoop counts a b d i =
      match (downBy2 d i).find? (fun j => a j != b j) with
      | none => false
      | some j => if a j > counts j ∧ b j > counts j then false else decide (a j < b j) := by
  induction i using Nat.strong_induction_on with
  | _ i ih =>
    match i with
    | 0 =>
      rw [pm_lessLoop, downBy2, pm_lessAt]
      by_cases hd : 0 < d
      · simp [hd]
      · by_cases heq : a 0 = b 0 <;> simp [hd, heq, List.find?]
    | 1 =>
      rw [pm_lessLoop, downBy2, pm_lessAt]
      by_cases hd : 1 < d
      · simp [hd]
      · by_cases heq : a 1 = b 1 <;> simp [hd, heq, List.find?]
    | i + 2 =>
      rw [pm_lessLoop, downBy2, pm_lessAt]
      by_cases hd : i + 2 < d
      · simp [hd]
      · by_cases heq : a (i + 2) = b (i + 2)
        · simp only [if_neg hd, if_pos heq, List.find?, heq]
          have hpred : (b (i + 2) != b (i + 2)) = false := by simp
          rw [hpred]
          exact ih i (by omega)
        · have hpred : (a (i + 2) != b (i + 2)) = true := by simp [heq]
          simp [hd, heq, List.find?, hpred]

/-- C4, corrected: `pm_less` scans the player's coordinates from the
highest down to `d` and the first differing coordinate always decides
the order — as "not less" when both compared values exceed the current
`counts` bound there, and by `a i < b i` otherwise; the scan never
proceeds past the first differing coordinate. -/
theorem pm_less_eq_amended (counts : Nat → Int) (k : Nat) (a b : Nat → Int) (d pl : Nat) :
    pm_less counts k a b d pl = pm_lessAmended counts k a b d pl := by
  unfold pm_less pm_lessAmended
  by_cases hb : b pl = -1
  · simp [hb]
  · by_cases ha : a pl = -1
    · simp [hb, ha]
    · simp only [if_neg hb, if_neg ha]
      exact pm_lessLoop_eq_find counts a b d _

/-- C4, counterexample to the claim as stated: at the first differing
coordinate (index 2) both values exceed `counts`, and the claimed
ordering continues the scan downward (finding `a 0 < b 0`, hence `true`)
while the source's `pm_less` stops and returns `false`.  Both sentinel
coordinates are finite. -/
theorem pm_less_spec_mismatch :
    pm_less cCmp 4 aCmp bCmp 0 0 = false ∧
    pm_lessSpec cCmp 4 aCmp bCmp 0 0 = true ∧
    aCmp 0 ≠ -1 ∧ bCmp 0 ≠ -1 ∧ aCmp 2 ≠ bCmp 2 ∧
    aCmp 2 > cCmp 2 ∧ bCmp 2 > cCmp 2 := by
  decide

/-! ## C2: the progression operator against its reference definition -/

theorem upBy2_mem (b i j : Nat) :
    j ∈ upBy2 b i ↔ (j < b ∧ i ≤ j ∧ (j - i) % 2 = 0) := by
  simp only [upBy2, List.mem_filter, List.mem_range, decide_eq_true_eq]

theorem upBy2_nodup (b i : Nat) : (upBy2 b i).Nodup :=
  (List.nodup_range b).filter _

theorem upBy2_nil (b i : Nat) (h : b ≤ i) : upBy2 b i = [] := by
  apply List.eq_nil_iff_forall_not_mem.mpr
  intro j hj
  rw [upBy2_mem] at hj
  omega

theorem upBy2_succ (b i : Nat) :
    upBy2 (b + 1) i = upBy2 b i ++ (if i ≤ b ∧ (b - i) % 2 = 0 then [b] else []) := by
  rw [upBy2, upBy2, List.range_succ, List.filter_append]
  congr 1
  by_cases h : i ≤ b ∧ (b - i) % 2 = 0 <;> simp [h]

theorem firstGE_ge (pl d : Nat) : d ≤ firstGE pl d := by
  unfold firstGE
  split
  · omega
  · split <;> omega

theorem firstGE_facts (pl d : Nat) (hpl : pl < 2) :
    pl ≤ firstGE pl d ∧ (firstGE pl d - pl) % 2 = 0 := by
  unfold firstGE
  split
  · omega
  · split <;> omega

/-- Above `d`, the player-coordinate predicate agrees with the predicate
of the arithmetic sequence restarted at `firstGE pl d`. -/
theorem firstGE_parity_iff (pl d b : Nat) (hpl : pl < 2) (hdb : d ≤ b) :
    ((pl ≤ b ∧ (b - pl) % 2 = 0) ↔ (firstGE pl d ≤ b ∧ (b - firstGE pl d) % 2 = 0)) := by
  unfold firstGE
  split
  · omega
  · split <;> omega

/-- The player coordinates split at `d` into the zeroed prefix and the
carry-chain suffix. -/
theorem upBy2_decomp (pl d k : Nat) (hpl : pl < 2) (hdk : d ≤ k) :
    upBy2 k pl = upBy2 d pl ++ upBy2 k (firstGE pl d) := by
  induction k, hdk using Nat.le_induction with
  | base => rw [upBy2_nil d (firstGE pl d) (firstGE_ge pl d), List.append_nil]
  | succ k hdk ih =>
      rw [upBy2_succ k pl, upBy2_succ k (firstGE pl d), ih, List.append_assoc]
      congr 2
      rw [if_congr (firstGE_parity_iff pl d k hpl hdk) rfl rfl]

theorem progCarry_unchanged (counts src : Nat → Int) (L : List Nat) (dst : Nat → Int)
    (c : Int) (j : Nat) (hj : j ∉ L) :
    (progCarry counts src L dst c).1 j = dst j := by
  induction L generalizing dst c with
  | nil => rfl
  | cons i rest ih =>
      have hji : j ≠ i := fun h => hj (h ▸ List.mem_cons_self i rest)
      have hjr : j ∉ rest := fun h => hj (List.mem_cons_of_mem i h)
      rw [progCarry]
      split
      · rw [ih _ _ hjr, upd_ne _ _ _ _ hji]
      · rw [ih _ _ hjr, upd_ne _ _ _ _ hji]

theorem progCarry_carry (counts src : Nat → Int) (L : List Nat) (dst : Nat → Int)
    (c : Int) :
    (progCarry counts src L dst c).2 = (mixedRadixAdd counts src L c).2 := by
  induction L generalizing dst c with
  | nil => rfl
  | cons i rest ih =>
      rw [progCarry, mixedRadixAdd]
      split
      · exact ih _ _
      · exact ih _ _

/-- On a duplicate-free coordinate list, the in-place carry loop computes
exactly the mixed-radix values of the reference definition. -/
theorem progCarry_map (counts src : Nat → Int) (L : List Nat) (dst : Nat → Int)
    (c : Int) (hnd : L.Nodup) :
    L.map (progCarry counts src L dst c).1 = (mixedRadixAdd counts src L c).1 := by
  induction L generalizing dst c with
  | nil => rfl
  | cons i rest ih =>
      have hir : i ∉ rest := (List.nodup_cons.mp hnd).1
      have hrest : rest.Nodup := (List.nodup_cons.mp hnd).2
      rw [progCarry, mixedRadixAdd]
      split
      · dsimp only
        rw [List.map_cons, progCarry_unchanged _ _ _ _ _ _ hir, upd_same, ih _ _ hrest]
      · dsimp only
        rw [List.map_cons, progCarry_unchanged _ _ _ _ _ _ hir, upd_same, ih _ _ hrest]

theorem progCarry_nonneg (counts src : Nat → Int) (L : List Nat) (dst : Nat → Int)
    (c : Int) (hnd : L.Nodup) (hsrc : ∀ j ∈ L, 0 ≤ src j) (hc : 0 ≤ c) :
    ∀ j ∈ L, 0 ≤ (progCarry counts src L dst c).1 j := by
  induction L generalizing dst c with
  | nil => intro j hj; cases hj
  | cons i rest ih =>
      have hir : i ∉ rest := (List.nodup_cons.mp hnd).1
      have hrest : rest.Nodup := (List.nodup_cons.mp hnd).2
      intro j hj
      rw [progCarry]
      rcases List.mem_cons.mp hj with rfl | hjr
      · split
        · rw [progCarry_unchanged _ _ _ _ _ _ hir, upd_same]
        · rw [progCarry_unchanged _ _ _ _ _ _ hir, upd_same]
          have := hsrc j (List.mem_cons_self j rest)
          omega
      · split
        · exact ih _ _ hrest (fun x hx => hsrc x (List.mem_cons_of_mem i hx)) (by omega) j hjr
        · exact ih _ _ hrest (fun x hx => hsrc x (List.mem_cons_of_mem i hx)) le_rfl j hjr

/-- C2: the progression operator `prog` computes exactly the reference
result of the claim: `TOP` propagates; player coordinates strictly below
`d` become 0; from the first player coordinate `≥ d` on, the mixed-radix
carry chain starts with carry 1 iff `d mod 2 = p`; a remaining carry
yields `TOP`.  The result is independent of the scratch contents `dst`. -/
theorem prog_matches_spec (counts : Nat → Int) (k : Nat) (dst src : Nat → Int) (d pl : Nat)
    (hpl : pl < 2) (hk : 2 ≤ k) (hd : d < k)
    (hsrc : src pl ≠ -1 → ∀ i, i < k → i % 2 = pl → 0 ≤ src i) :
    pmObs k pl (prog counts k dst src d pl) = progSpecObs counts k src d pl := by
  rw [prog, progSpecObs]
  by_cases htop : src pl = -1
  · rw [if_pos htop, if_pos htop, pmObs, if_pos (upd_same _ _ _)]
  · rw [if_neg htop, if_neg htop]
    have hsrc' := hsrc htop
    dsimp only
    have hfge := firstGE_facts pl d hpl
    have hge := firstGE_ge pl d
    have hLsrc : ∀ j ∈ upBy2 k (firstGE pl d), 0 ≤ src j := by
      intro j hj
      rw [upBy2_mem] at hj
      exact hsrc' j hj.1 (by omega)
    have hces := progCarry_carry counts src (upBy2 k (firstGE pl d))
      (progReset dst d pl) (if d % 2 = pl then 1 else 0)
    by_cases hcarry : (progCarry counts src (upBy2 k (firstGE pl d))
        (progReset dst d pl) (if d % 2 = pl then 1 else 0)).2 ≠ 0
    · have hcarry' : (mixedRadixAdd counts src (upBy2 k (firstGE pl d))
          (if d % 2 = pl then 1 else 0)).2 ≠ 0 := by
        rw [← hces]; exact hcarry
      rw [if_pos hcarry, if_pos hcarry']
      rw [pmObs, if_pos (upd_same _ _ _)]
    · have hcarry' : ¬(mixedRadixAdd counts src (upBy2 k (firstGE pl d))
          (if d % 2 = pl then 1 else 0)).2 ≠ 0 := by
        rw [← hces]; exact hcarry
      rw [if_neg hcarry, if_neg hcarry']
      have hsent : (progCarry counts src (upBy2 k (firstGE pl d))
          (progReset dst d pl) (if d % 2 = pl then 1 else 0)).1 pl ≠ -1 := by
        by_cases hdpl : d ≤ pl
        · have hi0 : firstGE pl d = pl := by unfold firstGE; rw [if_pos hdpl]
          have hmem : pl ∈ upBy2 k (firstGE pl d) := by
            rw [upBy2_mem, hi0]
            omega
          have := progCarry_nonneg counts src (upBy2 k (firstGE pl d))
            (progReset dst d pl) (if d % 2 = pl then 1 else 0)
            (upBy2_nodup _ _) hLsrc (by split <;> omega) pl hmem
          omega
        · have hnot : pl ∉ upBy2 k (firstGE pl d) := by
            rw [upBy2_mem]
            omega
          rw [progCarry_unchanged _ _ _ _ _ _ hnot, progReset,
            if_pos ⟨le_rfl, by omega, by omega⟩]
          omega
      rw [pmObs, if_neg hsent]
      congr 1
      rw [upBy2_decomp pl d k hpl (by omega), List.map_append]
      congr 1
      · apply List.map_congr_left
        intro j hj
        rw [upBy2_mem] at hj
        have hnot : j ∉ upBy2 k (firstGE pl d) := by
          rw [upBy2_mem]
          omega
        rw [progCarry_unchanged _ _ _ _ _ _ hnot, progReset,
          if_pos ⟨hj.2.1, hj.1, hj.2.2⟩]
      · exact progCarry_map _ _ _ _ _ (upBy2_nodup _ _)

/-- C2, witness: the equivalence at `k = 4`, priority 2, player 0, with
the zero bound vector and concrete measure arrays. -/
theorem prog_matches_spec_witness :
    pmObs 4 0 (prog cCmp 4 bCmp aCmp 2 0) = progSpecObs cCmp 4 aCmp 2 0 :=
  prog_matches_spec cCmp 4 bCmp aCmp 2 0 (by decide) (by decide) (by decide)
    (by decide)

/-! ## C10: the books-balance invariant of `counts` -/

/-- Counting a predicate that flips from true to false at exactly one
element of the range. -/
theorem filter_card_flip (n node : Nat) (hnode : node < n) (P Q : Nat → Prop)
    [DecidablePred P] [DecidablePred Q]
    (hother : ∀ v, v ≠ node → (P v ↔ Q v)) (hP : P node) (hQ : ¬Q node) :
    ((Finset.range n).filter P).card = ((Finset.range n).filter Q).card + 1 := by
  have hset : (Finset.range n).filter P = insert node ((Finset.range n).filter Q) := by
    ext v
    simp only [Finset.mem_filter, Finset.mem_range, Finset.mem_insert]
    constructor
    · rintro ⟨hv, hPv⟩
      by_cases hvn : v = node
      · exact Or.inl hvn
      · exact Or.inr ⟨hv, (hother v hvn).mp hPv⟩
    · rintro (rfl | ⟨hv, hQv⟩)
      · exact ⟨hnode, hP⟩
      · by_cases hvn : v = node
        · subst hvn
          exact absurd hQv hQ
        · exact ⟨hv, (hother v hvn).mpr hQv⟩
  rw [hset, Finset.card_insert_of_not_mem (by simp [hQ])]

/-- Counting a predicate through a pointwise equivalence on the range. -/
theorem filter_card_iff (n : Nat) (P Q : Nat → Prop)
    [DecidablePred P] [DecidablePred Q] (h : ∀ v, v < n → (P v ↔ Q v)) :
    ((Finset.range n).filter P).card = ((Finset.range n).filter Q).card := by
  congr 1
  apply Finset.filter_congr
  intro x hx
  exact h x (Finset.mem_range.mp hx)

/-- The `counts` tally of `solve`'s prologue: starting from `base`, one
increment at `p v` per vertex `v`. -/
theorem tally_spec (p : Nat → Nat) (n : Nat) (base : Nat → Int) (i : Nat) :
    ((List.range n).foldl (fun c v => upd c (p v) (c (p v) + 1)) base) i
      = base i + ((Finset.range n).filter (fun v => p v = i)).card := by
  induction n with
  | zero => simp
  | succ n ih =>
      rw [List.range_succ, List.foldl_append, List.foldl_cons, List.foldl_nil,
        Finset.range_succ, Finset.filter_insert]
      by_cases hp : p n = i
      · rw [if_pos hp, Finset.card_insert_of_not_mem (by simp), hp, upd_same, ih]
        push_cast
        ring
      · rw [if_neg hp, upd_ne _ _ _ _ (fun h => hp h.symm)]
        exact ih

/-- The invariant holds the moment `counts` is initialized: all measures
are zero and `counts[i]` is the number of priority-`i` vertices. -/
theorem resetState_countsInv (g : Game) (s0 : St) : countsInv g (resetState g s0) := by
  intro i hi
  simp only [resetState] at hi ⊢
  rw [tally_spec, if_pos hi, zero_add]
  symm
  exact_mod_cast filter_card_iff g.n _ _ (by
    intro v hv
    constructor
    · rintro ⟨hp, -⟩
      exact hp
    · intro hp
      refine ⟨hp, ?_⟩
      have hik : i % 2 < max (get_max_priority g + 1) 2 := by
        have := Nat.le_max_right (get_max_priority g + 1) 2
        omega
      rw [if_pos ⟨hv, hik⟩]
      decide)

/-! ## C3: the demotion phase of the stabilization pass -/

theorem todo_push_pms (s : St) (i : Nat) : (todo_push s i).pms = s.pms := by
  rw [todo_push]; split <;> rfl

theorem todo_push_unstable (s : St) (i : Nat) : (todo_push s i).unstable = s.unstable := by
  rw [todo_push]; split <;> rfl

theorem todo_push_dirty_ne (s : St) (i v : Nat) (h : s.dirty v ≠ 0) :
    (todo_push s i).dirty v ≠ 0 := by
  rw [todo_push]
  split
  · by_cases hvi : v = i
    · subst hvi; simp
    · simpa [upd, hvi] using h
  · exact h

theorem todo_push_todo_mem (s : St) (i x : Nat) (h : x ∈ s.todo) :
    x ∈ (todo_push s i).todo := by
  rw [todo_push]
  split
  · simp [h]
  · exact h

theorem todo_push_pending (s : St) (i : Nat) :
    (todo_push s i).dirty i ≠ 0 ∧ (s.dirty i = 0 → i ∈ (todo_push s i).todo) := by
  rw [todo_push]
  split
  · simp
  · next h => exact ⟨h, fun h0 => absurd h0 h⟩

/-- Writes of the demotion loop only ever store `TOP`, so a `TOP`
coordinate stays `TOP`. -/
theorem updateFinalLoop_pms_top (g : Game) (pl : Nat) (l : List Nat) (s : St)
    (v c : Nat) (h : s.pms v c = -1) :
    (updateFinalLoop g pl l s).pms v c = -1 := by
  induction l generalizing s with
  | nil => exact h
  | cons j rest ih =>
      rw [updateFinalLoop]
      split
      · apply ih
        rw [todo_push_pms]
        by_cases hvj : v = j
        · subst hvj
          by_cases hc : c = 1 - pl
          · subst hc; simp [upd]
          · simp [upd, hc, h]
        · simp [upd, hvj, h]
      · exact ih s h

theorem updateFinalLoop_dirty_ne (g : Game) (pl : Nat) (l : List Nat) (s : St)
    (v : Nat) (h : s.dirty v ≠ 0) :
    (updateFinalLoop g pl l s).dirty v ≠ 0 := by
  induction l generalizing s with
  | nil => exact h
  | cons j rest ih =>
      rw [updateFinalLoop]
      split
      · exact ih _ (todo_push_dirty_ne _ j v h)
      · exact ih s h

theorem updateFinalLoop_todo_mem (g : Game) (pl : Nat) (l : List Nat) (s : St)
    (x : Nat) (h : x ∈ s.todo) :
    x ∈ (updateFinalLoop g pl l s).todo := by
  induction l generalizing s with
  | nil => exact h
  | cons j rest ih =>
      rw [updateFinalLoop]
      split
      · exact ih _ (todo_push_todo_mem _ j x h)
      · exact ih s h

/-- Any vertex of the demotion list that is stable, has a live opposing
counter and a priority parity disagreeing with the pass's player, comes
out of the demotion loop with that opposing counter at `TOP` and a
pending entry on the main worklist. -/
theorem updateFinalLoop_demotes (g : Game) (pl : Nat) (l : List Nat) (s : St) (i : Nat)
    (hi : i ∈ l)
    (hstable : s.unstable i = 0) (hfin : s.pms i (1 - pl) ≠ -1)
    (hpar : g.priority i % 2 ≠ pl) :
    (updateFinalLoop g pl l s).pms i (1 - pl) = -1 ∧
    (updateFinalLoop g pl l s).dirty i ≠ 0 ∧
    (s.dirty i = 0 → i ∈ (updateFinalLoop g pl l s).todo) := by
  induction l generalizing s with
  | nil => cases hi
  | cons j rest ih =>
      rw [updateFinalLoop]
      by_cases hij : i = j
      · subst hij
        rw [if_pos ⟨hstable, hfin, hpar⟩]
        have hpend := todo_push_pending
          { s with
              counts := upd s.counts (g.priority i) (s.counts (g.priority i) - 1)
              pms := upd s.pms i (upd (s.pms i) (1 - pl) (-1)) } i
        refine ⟨?_, ?_, ?_⟩
        · apply updateFinalLoop_pms_top
          rw [todo_push_pms]
          simp [upd]
        · exact updateFinalLoop_dirty_ne g pl rest _ i hpend.1
        · intro h0
          exact updateFinalLoop_todo_mem g pl rest _ i (hpend.2 h0)
      · have hmem : i ∈ rest := by
          rcases List.mem_cons.mp hi with h | h
          · exact absurd h hij
          · exact h
        split
        · have hdirty : (todo_push
              { s with
                  counts := upd s.counts (g.priority j) (s.counts (g.priority j) - 1),
                  pms := upd s.pms j (upd (s.pms j) (1 - pl) (-1)) } j).dirty i
              = s.dirty i := by
            rw [todo_push]
            split
            · simp [upd, hij]
            · rfl
          rw [← hdirty]
          apply ih _ hmem
          · rw [todo_push_unstable]; exact hstable
          · rw [todo_push_pms]
            simpa [upd, hij] using hfin
        · exact ih s hmem hstable hfin

/-- C3, amended: in each stabilization pass for player `pl`, every vertex
that is not reached by the unstable-propagation, whose opposing-player
counter is finite, and whose priority parity disagrees with `pl`, has
that opposing counter promoted to `TOP` (written `-1`) — not to a
non-`TOP` value — and ends up pending on the main worklist. -/
theorem update_demotes_to_top (g : Game) (pl fuel : Nat) (s s1 : St) (i : Nat)
    (hprop : updatePropLoop g pl fuel
      (updateSeedLoop g pl (List.range g.n) s []).1
      (updateSeedLoop g pl (List.range g.n) s []).2 = some s1)
    (hi : i < g.n)
    (hstable : s1.unstable i = 0) (hfin : s1.pms i (1 - pl) ≠ -1)
    (hpar : g.priority i % 2 ≠ pl) :
    ∃ s', update g pl fuel s = some s' ∧
      s'.pms i (1 - pl) = -1 ∧ s'.dirty i ≠ 0 ∧
      (s1.dirty i = 0 → i ∈ s'.todo) := by
  refine ⟨updateFinalLoop g pl (List.range g.n) s1, ?_, ?_⟩
  · rw [update, hprop]
  · exact updateFinalLoop_demotes g pl (List.range g.n) s1 i
      (List.mem_range.mpr hi) hstable hfin hpar

/-- C3, witness: the one-vertex self-loop of priority 1, pass for player
0, starting from the freshly initialized state: the vertex is stable,
its player-1 counter is finite, and the pass drives it to `TOP` and
enqueues the vertex. -/
theorem update_demotes_to_top_witness :
    ∃ s', update gLoop1 0 2 (resetState gLoop1 freshState) = some s' ∧
      s'.pms 0 1 = -1 ∧ s'.dirty 0 ≠ 0 ∧ 0 ∈ s'.todo := by
  obtain ⟨s', h1, h2, h3, h4⟩ :=
    update_demotes_to_top gLoop1 0 2 (resetState gLoop1 freshState) _ 0
      rfl (by decide) (by decide) (by decide) (by decide)
  exact ⟨s', h1, h2, h3, h4 (by decide)⟩

/-- C3, counterexample to the claim as stated: on the one-vertex
self-loop of priority 1, the player-0 stabilization pass leaves the
vertex unreached by the unstable-propagation, its player-1 counter is
finite beforehand and its priority parity disagrees with the pass — yet
the pass sets that counter to `TOP` (`-1`), not to a non-`TOP` value. -/
theorem update_demotion_not_finite :
    ((update gLoop1 0 2 (resetState gLoop1 freshState)).map (fun s' => s'.pms 0 1))
        = some (-1) ∧
    (resetState gLoop1 freshState).pms 0 1 ≠ -1 ∧
    gLoop1.priority 0 % 2 ≠ 0 ∧
    ((updatePropLoop gLoop1 0 2
        (updateSeedLoop gLoop1 0 (List.range gLoop1.n) (resetState gLoop1 freshState) []).1
        (updateSeedLoop gLoop1 0 (List.range gLoop1.n) (resetState gLoop1 freshState) []).2).map
      (fun s1 => s1.unstable 0)) = some 0 := by
  decide

/-! ## C6: the shrinking-bound decrement in `lift` -/

theorem pm_copy_off (dst src : Nat → Int) (k pl j : Nat)
    (h : ¬(pl ≤ j ∧ j < k ∧ (j - pl) % 2 = 0)) : pm_copy dst src k pl j = dst j := by
  simp only [pm_copy, if_neg h]

/-- Copying player `pl`'s coordinates leaves the other player's sentinel
coordinate untouched. -/
theorem pm_copy_other_sentinel (dst src : Nat → Int) (k pl c : Nat)
    (hpl : pl < 2) (hc : c < 2) (hne : c ≠ pl) : pm_copy dst src k pl c = dst c := by
  apply pm_copy_off
  omega

/-- A non-`-1` adopted-target flag can never return to `-1` in the owner
scan. -/
theorem liftOwnerLoop_bch_stays (counts : Nat → Int) (k node d pl : Nat) (l : List Nat)
    (pms : Nat → Nat → Int) (tmp : Nat → Int) (b : Int) (hb : b ≠ -1) :
    (liftOwnerLoop counts k node d pl l pms tmp b).2.2 ≠ -1 := by
  induction l generalizing pms tmp b with
  | nil => exact hb
  | cons t rest ih =>
      rw [liftOwnerLoop]
      split
      · exact ih _ _ _ (by simp)
      · exact ih _ _ _ hb

/-- If the owner scan adopted nothing, the measures are unchanged. -/
theorem liftOwnerLoop_bch_none (counts : Nat → Int) (k node d pl : Nat) (l : List Nat)
    (pms : Nat → Nat → Int) (tmp : Nat → Int)
    (h : (liftOwnerLoop counts k node d pl l pms tmp (-1)).2.2 = -1) :
    (liftOwnerLoop counts k node d pl l pms tmp (-1)).1 = pms := by
  induction l generalizing pms tmp with
  | nil => rfl
  | cons t rest ih =>
      rw [liftOwnerLoop] at h ⊢
      by_cases hc : pm_less counts k (pms node) (prog counts k tmp (pms t) d pl) d pl = true
      · rw [if_pos hc] at h
        exact absurd h (liftOwnerLoop_bch_stays counts k node d pl rest _ _ _
          (by simp))
      · rw [if_neg hc] at h ⊢
        exact ih _ _ h

/-- The owner scan never writes outside `node`'s slice nor outside the
owner's coordinate window. -/
theorem liftOwnerLoop_off (counts : Nat → Int) (k node d pl : Nat) (l : List Nat)
    (pms : Nat → Nat → Int) (tmp : Nat → Int) (b : Int) (v j : Nat)
    (h : v ≠ node ∨ ¬(pl ≤ j ∧ j < k ∧ (j - pl) % 2 = 0)) :
    (liftOwnerLoop counts k node d pl l pms tmp b).1 v j = pms v j := by
  induction l generalizing pms tmp b with
  | nil => rfl
  | cons t rest ih =>
      rw [liftOwnerLoop]
      split
      · rw [ih]
        rcases h with h | h
        · rw [upd_ne _ _ _ _ h]
        · by_cases hv : v = node
          · subst hv
            rw [upd_same, pm_copy_off _ _ _ _ _ h]
          · rw [upd_ne _ _ _ _ hv]
      · exact ih _ _ _

/-- The minimizing scan returns a real target when it starts with one or
scans at least one edge. -/
theorem minProgLoop_bestTo_ne (counts : Nat → Int) (k d pl : Nat) (pms : Nat → Nat → Int)
    (l : List Nat) (tmp best : Nat → Int) (b : Int) (h : b ≠ -1 ∨ l ≠ []) :
    (minProgLoop counts k d pl pms l tmp best b).2.2 ≠ -1 := by
  induction l generalizing tmp best b with
  | nil =>
      rcases h with h | h
      · exact h
      · exact absurd rfl h
  | cons t rest ih =>
      rw [minProgLoop]
      split
      · exact ih _ _ _ (Or.inl (by simp))
      · rename_i hcond
        push_neg at hcond
        exact ih _ _ _ (Or.inl hcond.1)

/-- The owner attempt adopts a raise only when the owner's counter was
live. -/
theorem liftOwnerAttempt_flag_guard (g : Game) (s : St) (node : Nat) (target : Int)
    (h : (liftOwnerAttempt g s node target).2.2 ≠ -1) :
    s.pms node (g.owner node) ≠ -1 := by
  intro htop
  rw [liftOwnerAttempt, if_pos htop] at h
  exact h rfl

/-- If the owner attempt adopted nothing, the measures are unchanged. -/
theorem liftOwnerAttempt_flag_none (g : Game) (s : St) (node : Nat) (target : Int)
    (h : (liftOwnerAttempt g s node target).2.2 = -1) :
    (liftOwnerAttempt g s node target).1 = s.pms := by
  rw [liftOwnerAttempt] at h ⊢
  by_cases h1 : s.pms node (g.owner node) = -1
  · rw [if_pos h1]
  · rw [if_neg h1] at h ⊢
    by_cases h2 : target ≠ -1
    · rw [if_pos h2] at h ⊢
      dsimp only at h ⊢
      by_cases h3 : pm_less s.counts s.k (s.pms node)
          (prog s.counts s.k s.tmp (s.pms target.toNat) (g.priority node) (g.owner node))
          (g.priority node) (g.owner node) = true
      · rw [if_pos h3] at h
        exact absurd h h2
      · rw [if_neg h3]
    · rw [if_neg h2] at h ⊢
      exact liftOwnerLoop_bch_none _ _ _ _ _ _ _ _ h

/-- The owner attempt never writes outside `node`'s slice nor outside the
owner's coordinate window. -/
theorem liftOwnerAttempt_pms_off (g : Game) (s : St) (node : Nat) (target : Int)
    (v j : Nat)
    (h : v ≠ node ∨ ¬(g.owner node ≤ j ∧ j < s.k ∧ (j - g.owner node) % 2 = 0)) :
    (liftOwnerAttempt g s node target).1 v j = s.pms v j := by
  rw [liftOwnerAttempt]
  split
  · rfl
  · split
    · dsimp only
      split
      · dsimp only
        rcases h with h | h
        · rw [upd_ne _ _ _ _ h]
        · by_cases hv : v = node
          · subst hv
            rw [upd_same, pm_copy_off _ _ _ _ _ h]
          · rw [upd_ne _ _ _ _ hv]
      · rfl
    · exact liftOwnerLoop_off _ _ _ _ _ _ _ _ _ _ _ h

/-- The owner attempt leaves the opponent's sentinel coordinate alone. -/
theorem liftOwnerAttempt_other_sentinel (g : Game) (s : St) (node : Nat) (target : Int)
    (howner : g.owner node < 2) :
    (liftOwnerAttempt g s node target).1 node (1 - g.owner node)
      = s.pms node (1 - g.owner node) := by
  apply liftOwnerAttempt_pms_off
  right
  omega

/-- The opponent attempt adopts a raise only when the opponent's counter
was live. -/
theorem liftOppAttempt_flag_guard (g : Game) (s : St) (node : Nat) (target : Int)
    (pms1 : Nat → Nat → Int) (tmp1 : Nat → Int)
    (h : (liftOppAttempt g s node target pms1 tmp1).2.2.2.2 ≠ -1) :
    pms1 node (1 - g.owner node) ≠ -1 := by
  rw [liftOppAttempt] at h
  split at h
  · rename_i hguard
    exact hguard.1
  · exact absurd rfl h

/-- If the opponent attempt adopted nothing and the vertex has at least
one out-edge, the measures are unchanged. -/
theorem liftOppAttempt_flag_none (g : Game) (s : St) (node : Nat) (target : Int)
    (pms1 : Nat → Nat → Int) (tmp1 : Nat → Int) (hadj : g.adj node ≠ [])
    (h : (liftOppAttempt g s node target pms1 tmp1).2.2.2.2 = -1) :
    (liftOppAttempt g s node target pms1 tmp1).1 = pms1 := by
  rw [liftOppAttempt] at h ⊢
  by_cases h1 : pms1 node (1 - g.owner node) ≠ -1 ∧ (target = -1 ∨ target = s.strategy node)
  · rw [if_pos h1] at h ⊢
    dsimp only at h ⊢
    by_cases h2 : pm_less s.counts s.k (pms1 node)
        (minProgLoop s.counts s.k (g.priority node) (1 - g.owner node) pms1
          (g.adj node) tmp1 s.best (-1)).2.1
        (g.priority node) (1 - g.owner node) = true
    · rw [if_pos h2] at h
      exact absurd h (minProgLoop_bestTo_ne _ _ _ _ _ _ _ _ _ (Or.inr hadj))
    · rw [if_neg h2]
  · rw [if_neg h1]

/-- The opponent attempt leaves the owner's sentinel coordinate alone. -/
theorem liftOppAttempt_owner_sentinel (g : Game) (s : St) (node : Nat) (target : Int)
    (pms1 : Nat → Nat → Int) (tmp1 : Nat → Int) (howner : g.owner node < 2) :
    (liftOppAttempt g s node target pms1 tmp1).1 node (g.owner node)
      = pms1 node (g.owner node) := by
  rw [liftOppAttempt]
  split
  · dsimp only
    split
    · dsimp only
      rw [upd_same,
        pm_copy_other_sentinel _ _ _ _ _ (by omega) howner (by omega)]
    · rfl
  · rfl

/-- The pure bookkeeping at the end of `lift`: how the two guarded
decrements of `counts` relate to a counter newly reaching `TOP`, stated
over abstract attempt results.  `oflag`/`mflag` are the adopted-target
flags of the owner and opponent attempts, `pms2` the measures after both
attempts. -/
theorem lift_counts_core (ownN prN : Nat) (countsS : Nat → Int) (pmsS : Nat → Nat → Int)
    (node : Nat) (oflag mflag : Int) (pms2 : Nat → Nat → Int)
    (howner : ownN < 2)
    (hOwnG : oflag ≠ -1 → pmsS node ownN ≠ -1)
    (hOwnN : oflag = -1 → pms2 node ownN = pmsS node ownN)
    (hOppG : mflag ≠ -1 → pmsS node (1 - ownN) ≠ -1)
    (hOppN : mflag = -1 → pms2 node (1 - ownN) = pmsS node (1 - ownN))
    (i : Nat) :
    (if (if ownN = 0 then mflag else oflag) ≠ -1 ∧ pms2 node 1 = -1 ∧ prN % 2 = 1 then
        upd (if (if ownN = 0 then oflag else mflag) ≠ -1 ∧ pms2 node 0 = -1 ∧ prN % 2 = 0 then
               upd countsS prN (countsS prN - 1) else countsS) prN
          ((if (if ownN = 0 then oflag else mflag) ≠ -1 ∧ pms2 node 0 = -1 ∧ prN % 2 = 0 then
               upd countsS prN (countsS prN - 1) else countsS) prN - 1)
      else (if (if ownN = 0 then oflag else mflag) ≠ -1 ∧ pms2 node 0 = -1 ∧ prN % 2 = 0 then
               upd countsS prN (countsS prN - 1) else countsS)) i
    = countsS i -
        (if i = prN ∧ pmsS node (i % 2) ≠ -1 ∧ pms2 node (i % 2) = -1 then 1 else 0) := by
  have hflag0 : ((if ownN = 0 then oflag else mflag) ≠ -1 → pmsS node 0 ≠ -1) := by
    by_cases h : ownN = 0
    · rw [if_pos h]
      intro hf
      have := hOwnG hf
      rwa [h] at this
    · have h1 : ownN = 1 := by omega
      rw [if_neg h]
      intro hf
      have := hOppG hf
      rw [h1] at this
      simpa using this
  have hnone0 : ((if ownN = 0 then oflag else mflag) = -1 → pms2 node 0 = pmsS node 0) := by
    by_cases h : ownN = 0
    · rw [if_pos h]
      intro hf
      have := hOwnN hf
      rwa [h] at this
    · have h1 : ownN = 1 := by omega
      rw [if_neg h]
      intro hf
      have := hOppN hf
      rw [h1] at this
      simpa using this
  have hflag1 : ((if ownN = 0 then mflag else oflag) ≠ -1 → pmsS node 1 ≠ -1) := by
    by_cases h : ownN = 0
    · rw [if_pos h]
      intro hf
      have := hOppG hf
      rw [h] at this
      simpa using this
    · have h1 : ownN = 1 := by omega
      rw [if_neg h]
      intro hf
      have := hOwnG hf
      rwa [h1] at this
  have hnone1 : ((if ownN = 0 then mflag else oflag) = -1 → pms2 node 1 = pmsS node 1) := by
    by_cases h : ownN = 0
    · rw [if_pos h]
      intro hf
      have := hOppN hf
      rw [h] at this
      simpa using this
    · have h1 : ownN = 1 := by omega
      rw [if_neg h]
      intro hf
      have := hOwnN hf
      rwa [h1] at this
  by_cases hpar : prN % 2 = 0
  · have hA1 : ¬((if ownN = 0 then mflag else oflag) ≠ -1 ∧ pms2 node 1 = -1 ∧
        prN % 2 = 1) := by
      rintro ⟨-, -, hp⟩
      omega
    rw [if_neg hA1]
    by_cases hA0 : (if ownN = 0 then oflag else mflag) ≠ -1 ∧ pms2 node 0 = -1 ∧
        prN % 2 = 0
    · rw [if_pos hA0]
      have hpre := hflag0 hA0.1
      by_cases hi : i = prN
      · subst hi
        rw [upd_same, if_pos ⟨rfl, by rw [hpar]; exact hpre, by rw [hpar]; exact hA0.2.1⟩]
      · rw [upd_ne _ _ _ _ hi, if_neg (fun h => hi h.1), sub_zero]
    · rw [if_neg hA0]
      have hcond : ¬(i = prN ∧ pmsS node (i % 2) ≠ -1 ∧ pms2 node (i % 2) = -1) := by
        rintro ⟨rfl, hx, hy⟩
        rw [hpar] at hx hy
        refine hA0 ⟨fun hf => ?_, hy, hpar⟩
        rw [hnone0 hf] at hy
        exact hx hy
      rw [if_neg hcond, sub_zero]
  · have hpar1 : prN % 2 = 1 := by omega
    have hA0 : ¬((if ownN = 0 then oflag else mflag) ≠ -1 ∧ pms2 node 0 = -1 ∧
        prN % 2 = 0) := by
      rintro ⟨-, -, hp⟩
      omega
    rw [if_neg hA0]
    by_cases hA1 : (if ownN = 0 then mflag else oflag) ≠ -1 ∧ pms2 node 1 = -1 ∧
        prN % 2 = 1
    · rw [if_pos hA1]
      have hpre := hflag1 hA1.1
      by_cases hi : i = prN
      · subst hi
        rw [upd_same, if_pos ⟨rfl, by rw [hpar1]; exact hpre, by rw [hpar1]; exact hA1.2.1⟩]
      · rw [upd_ne _ _ _ _ hi, if_neg (fun h => hi h.1), sub_zero]
    · rw [if_neg hA1]
      have hcond : ¬(i = prN ∧ pmsS node (i % 2) ≠ -1 ∧ pms2 node (i % 2) = -1) := by
        rintro ⟨rfl, hx, hy⟩
        rw [hpar1] at hx hy
        refine hA1 ⟨fun hf => ?_, hy, hpar1⟩
        rw [hnone1 hf] at hy
        exact hx hy
      rw [if_neg hcond, sub_zero]

/-- The exact `counts` effect of one `lift` call: a decrement at
`priority(node)` iff that priority's player's counter of `node` went
finite-to-`TOP`, nothing anywhere else. -/
theorem lift_counts_char (g : Game) (s : St) (node : Nat) (target : Int)
    (howner : g.owner node < 2) (hadj : g.adj node ≠ []) (i : Nat) :
    ((lift g s node target).1).counts i =
      s.counts i -
        (if i = g.priority node ∧ s.pms node (i % 2) ≠ -1 ∧
            ((lift g s node target).1).pms node (i % 2) = -1 then 1 else 0) := by
  by_cases h00 : s.pms node 0 = -1 ∧ s.pms node 1 = -1
  · rw [lift, if_pos h00]
    have hcond : ¬(i = g.priority node ∧ s.pms node (i % 2) ≠ -1 ∧
        s.pms node (i % 2) = -1) := by tauto
    simp [hcond]
  · rw [lift, if_neg h00]
    dsimp only
    exact lift_counts_core (g.owner node) (g.priority node) s.counts s.pms node
      (liftOwnerAttempt g s node target).2.2
      (liftOppAttempt g s node target (liftOwnerAttempt g s node target).1
        (liftOwnerAttempt g s node target).2.1).2.2.2.2
      (liftOppAttempt g s node target (liftOwnerAttempt g s node target).1
        (liftOwnerAttempt g s node target).2.1).1
      howner
      (liftOwnerAttempt_flag_guard g s node target)
      (fun hf => by
        rw [liftOppAttempt_owner_sentinel g s node target _ _ howner,
          liftOwnerAttempt_flag_none g s node target hf])
      (fun hf => by
        have := liftOppAttempt_flag_guard g s node target
          (liftOwnerAttempt g s node target).1 (liftOwnerAttempt g s node target).2.1 hf
        rwa [liftOwnerAttempt_other_sentinel g s node target howner] at this)
      (fun hf => by
        rw [liftOppAttempt_flag_none g s node target _ _ hadj hf,
          liftOwnerAttempt_other_sentinel g s node target howner])
      i

/-- C6: a call to `lift` decrements `counts[priority(node)]` exactly when
it raises the player-`(priority(node) mod 2)` counter of `node` from
finite to `TOP`; a counter of the other parity saturating leaves `counts`
unchanged, and so does any lift that saturates nothing.  All other
`counts` entries are untouched. -/
theorem lift_counts_decrement (g : Game) (s : St) (node : Nat) (target : Int)
    (howner : g.owner node < 2) (hadj : g.adj node ≠ []) (i : Nat) :
    ((lift g s node target).1).counts i =
      s.counts i -
        (if i = g.priority node ∧ s.pms node (i % 2) ≠ -1 ∧
            ((lift g s node target).1).pms node (i % 2) = -1 then 1 else 0) :=
  lift_counts_char g s node target howner hadj i

/-- C6, witness: the decrement characterization at the one-vertex
self-loop, freshly initialized, at the counts entry of its priority. -/
theorem lift_counts_decrement_witness :
    ((lift gLoop1 (resetState gLoop1 freshState) 0 (-1)).1).counts 1 =
      (resetState gLoop1 freshState).counts 1 -
        (if 1 = gLoop1.priority 0 ∧ (resetState gLoop1 freshState).pms 0 (1 % 2) ≠ -1 ∧
            ((lift gLoop1 (resetState gLoop1 freshState) 0 (-1)).1).pms 0 (1 % 2) = -1
          then 1 else 0) :=
  lift_counts_decrement gLoop1 (resetState gLoop1 freshState) 0 (-1)
    (by decide) (by decide) 1

/-! ## C7: behaviour on a both-TOP state -/


/-- C7: on a vertex whose two per-player counters are both `TOP`, `lift`
returns `false` with the state unchanged — no failure of any kind is
signalled — and the result extraction also proceeds normally, recording
player 0 as the winner.  (In the source, `solve`'s consistency check
`if ((pm[0] == -1) == (pm[1] == -1)) { }` has an empty body.) -/
theorem lift_silent_on_both_top (g : Game) (s : St) (node : Nat) (target : Int)
    (h0 : s.pms node 0 = -1) (h1 : s.pms node 1 = -1) :
    lift g s node target = (s, false) ∧ winnerOf s node = 0 := by
  constructor
  · rw [lift, if_pos ⟨h0, h1⟩]
  · rw [winnerOf, if_pos h0]

/-- C7, witness: a concrete both-`TOP` state on the one-vertex game. -/
theorem lift_silent_on_both_top_witness :
    lift gLoop1 sBothTop 0 (-1) = (sBothTop, false) ∧ winnerOf sBothTop 0 = 0 :=
  lift_silent_on_both_top gLoop1 sBothTop 0 (-1) rfl rfl

/-! ## C8: absence of input validation -/

/-- C8, counterexample to the claim as stated: on a graph whose single
vertex has zero out-degree, `solve` does not refuse to run — it runs the
fixpoint machinery and returns a normal solution (winning player 1 for
the vertex), signalling no failure of any kind. -/
theorem solve_runs_without_validation :
    (solveFresh gNoEdge 5 5).isSome = true ∧
    (solveFresh gNoEdge 5 5).map (fun s => solutionWinners gNoEdge s) = some [(0, 1)] := by
  decide

/-- C8, amended: `solve` performs no input validation and has no failure
channel: a zero-out-degree vertex is processed like any other and yields
a normal solution, while the empty graph yields the trivially empty
solution. -/
theorem solve_no_validation_empty_ok (fuel ufuel : Nat) (g : Game) (hg : g.n = 0) :
    (solveFresh g fuel ufuel).map (fun s => solutionWinners g s) = some [] ∧
    (solveFresh gNoEdge 5 5).isSome = true := by
  refine ⟨?_, by decide⟩
  have hinit : initLoop g g.n (resetState g freshState) = resetState g freshState := by
    rw [hg]; rfl
  have htodo : (resetState g freshState).todo = [] := rfl
  unfold solveFresh solveState
  rw [hinit]
  cases fuel with
  | zero => simp [mainLoop, htodo, solutionWinners, hg]
  | succ m => rw [mainLoop, htodo]; simp [solutionWinners, hg]

/-- C8, witness: the amended statement at the empty game. -/
theorem solve_no_validation_empty_ok_witness :
    (solveFresh gEmpty 3 3).map (fun s => solutionWinners gEmpty s) = some [] ∧
    (solveFresh gNoEdge 5 5).isSome = true :=
  solve_no_validation_empty_ok 3 3 gEmpty rfl

/-! ## C10, continued: preservation of the books-balance invariant -/

theorem sameCore_refl (s : St) : sameCore s s := ⟨rfl, rfl, rfl⟩

theorem sameCore_trans {s1 s2 s3 : St} (h12 : sameCore s1 s2) (h23 : sameCore s2 s3) :
    sameCore s1 s3 :=
  ⟨h23.1.trans h12.1, h23.2.1.trans h12.2.1, h23.2.2.trans h12.2.2⟩

/-- `countsInv` only reads the core fields `k`, `counts` and `pms`. -/
theorem countsInv_of_sameCore (g : Game) (s s' : St) (hc : sameCore s s')
    (hinv : countsInv g s) : countsInv g s' := by
  obtain ⟨hk, hcounts, hpms⟩ := hc
  intro i hik
  rw [hk] at hik
  rw [hcounts, hpms]
  exact hinv i hik

/-- `lift` never changes the index bound `k`. -/
theorem lift_k (g : Game) (s : St) (node : Nat) (target : Int) :
    ((lift g s node target).1).k = s.k := by
  rw [lift]
  split
  · rfl
  · rfl

/-- The opponent attempt leaves the measures of other vertices alone. -/
theorem liftOppAttempt_pms_other (g : Game) (s : St) (node : Nat) (target : Int)
    (pms1 : Nat → Nat → Int) (tmp1 : Nat → Int) (v : Nat) (hv : v ≠ node) :
    (liftOppAttempt g s node target pms1 tmp1).1 v = pms1 v := by
  rw [liftOppAttempt]
  split
  · dsimp only
    split
    · exact upd_ne _ _ _ _ hv
    · rfl
  · rfl

/-- `lift` leaves the measures of other vertices alone. -/
theorem lift_pms_other (g : Game) (s : St) (node : Nat) (target : Int)
    (v j : Nat) (hv : v ≠ node) :
    ((lift g s node target).1).pms v j = s.pms v j := by
  rw [lift]
  split
  · rfl
  · dsimp only
    rw [liftOppAttempt_pms_other g s node target _ _ v hv]
    exact liftOwnerAttempt_pms_off g s node target v j (Or.inl hv)

/-- If the owner's counter is `TOP`, the owner attempt is skipped. -/
theorem liftOwnerAttempt_guard_skip (g : Game) (s : St) (node : Nat) (target : Int)
    (h : s.pms node (g.owner node) = -1) :
    (liftOwnerAttempt g s node target).1 = s.pms := by
  rw [liftOwnerAttempt, if_pos h]

/-- If the opponent's counter is `TOP`, the opponent attempt is skipped. -/
theorem liftOppAttempt_guard_skip (g : Game) (s : St) (node : Nat) (target : Int)
    (pms1 : Nat → Nat → Int) (tmp1 : Nat → Int)
    (h : pms1 node (1 - g.owner node) = -1) :
    (liftOppAttempt g s node target pms1 tmp1).1 = pms1 := by
  rw [liftOppAttempt, if_neg (fun hc => hc.1 h)]

/-- A per-player counter at `TOP` stays at `TOP` across `lift`: both
attempts are guarded on a live counter and each copies only its own
player's coordinates. -/
theorem lift_pms_top_stays (g : Game) (s : St) (node : Nat) (target : Int)
    (q : Nat) (hq : q < 2) (howner : g.owner node < 2)
    (h : s.pms node q = -1) :
    ((lift g s node target).1).pms node q = -1 := by
  rw [lift]
  split
  · exact h
  · dsimp only
    by_cases hqo : q = g.owner node
    · subst hqo
      rw [liftOppAttempt_owner_sentinel g s node target _ _ howner,
        liftOwnerAttempt_guard_skip g s node target h]
      exact h
    · have hqo' : q = 1 - g.owner node := by omega
      subst hqo'
      have h1 : (liftOwnerAttempt g s node target).1 node (1 - g.owner node)
          = s.pms node (1 - g.owner node) :=
        liftOwnerAttempt_other_sentinel g s node target howner
      rw [liftOppAttempt_guard_skip g s node target _ _ (h1.trans h), h1]
      exact h

/-- One `lift` call preserves the books-balance invariant: the decrement
of `counts[priority(node)]` happens exactly when the counted predicate
flips at `node`. -/
theorem lift_countsInv (g : Game) (s : St) (node : Nat) (target : Int)
    (hnode : node < g.n) (howner : g.owner node < 2) (hadj : g.adj node ≠ [])
    (hinv : countsInv g s) : countsInv g (lift g s node target).1 := by
  intro i hik
  rw [lift_k] at hik
  rw [lift_counts_char g s node target howner hadj i]
  by_cases hd : i = g.priority node ∧ s.pms node (i % 2) ≠ -1 ∧
      ((lift g s node target).1).pms node (i % 2) = -1
  · rw [if_pos hd, hinv i hik]
    have hflip := filter_card_flip g.n node hnode
      (fun v => g.priority v = i ∧ s.pms v (i % 2) ≠ -1)
      (fun v => g.priority v = i ∧ ((lift g s node target).1).pms v (i % 2) ≠ -1)
      (fun v hv => by dsimp only; rw [lift_pms_other g s node target v (i % 2) hv])
      ⟨hd.1.symm, hd.2.1⟩
      (fun hc => hc.2 hd.2.2)
    rw [hflip]
    push_cast
    ring
  · rw [if_neg hd, sub_zero, hinv i hik]
    have hiff : ∀ v, v < g.n →
        ((g.priority v = i ∧ s.pms v (i % 2) ≠ -1) ↔
          (g.priority v = i ∧ ((lift g s node target).1).pms v (i % 2) ≠ -1)) := by
      intro v hv
      by_cases hvn : v = node
      · subst hvn
        by_cases htop : s.pms v (i % 2) = -1
        · have h' := lift_pms_top_stays g s v target (i % 2)
            (Nat.mod_lt _ (by omega)) howner htop
          constructor
          · rintro ⟨-, hx⟩
            exact absurd htop hx
          · rintro ⟨-, hx⟩
            exact absurd h' hx
        · constructor
          · rintro ⟨hp, -⟩
            refine ⟨hp, fun hl => ?_⟩
            exact hd ⟨hp.symm, htop, hl⟩
          · rintro ⟨hp, -⟩
            exact ⟨hp, htop⟩
      · rw [lift_pms_other g s node target v (i % 2) hvn]
    exact_mod_cast filter_card_iff g.n _ _ hiff

/-- `canlift` only writes the scratch arrays `tmp` and `best`. -/
theorem canlift_core (g : Game) (s : St) (node pl : Nat) :
    sameCore s (canlift g s node pl).1 := by
  rw [canlift]
  split
  · exact sameCore_refl s
  · dsimp only
    split
    · exact ⟨rfl, rfl, rfl⟩
    · split
      · exact ⟨rfl, rfl, rfl⟩
      · exact ⟨rfl, rfl, rfl⟩

/-- `todo_push` only writes the dirty bit and the queue. -/
theorem todo_push_core (s : St) (i : Nat) : sameCore s (todo_push s i) := by
  rw [todo_push]
  split
  · exact ⟨rfl, rfl, rfl⟩
  · exact sameCore_refl s

/-- The seeding loop of `update` touches no core field. -/
theorem updateSeedLoop_core (g : Game) (pl : Nat) (l : List Nat) (s : St) (q : List Nat) :
    sameCore s (updateSeedLoop g pl l s q).1 := by
  induction l generalizing s q with
  | nil => exact sameCore_refl s
  | cons i is ih =>
      rw [updateSeedLoop]
      dsimp only
      split
      · exact sameCore_trans (⟨rfl, rfl, rfl⟩ : sameCore s _) (ih _ _)
      · split
        · refine sameCore_trans ?_ (ih _ _)
          obtain ⟨hk, hc, hp⟩ :=
            canlift_core g { s with unstable := upd s.unstable i 0 } i pl
          exact ⟨hk, hc, hp⟩
        · refine sameCore_trans ?_ (ih _ _)
          obtain ⟨hk, hc, hp⟩ :=
            canlift_core g { s with unstable := upd s.unstable i 0 } i pl
          exact ⟨hk, hc, hp⟩

/-- One propagation examination touches no core field. -/
theorem updatePropBody_core (g : Game) (pl m : Nat) (s : St) (q : List Nat) :
    sameCore s (updatePropBody g pl m s q).1 := by
  rw [updatePropBody]
  split
  · exact sameCore_refl s
  · split
    · dsimp only
      split
      · exact ⟨rfl, rfl, rfl⟩
      · split
        · exact ⟨rfl, rfl, rfl⟩
        · exact ⟨rfl, rfl, rfl⟩
    · exact sameCore_refl s

/-- The out-edge scan of the propagation touches no core field. -/
theorem updatePropEdges_core (g : Game) (pl n u : Nat) (l : List Nat) (s : St)
    (q : List Nat) : sameCore s (updatePropEdges g pl n u l s q).1 := by
  induction l generalizing s q with
  | nil => exact sameCore_refl s
  | cons t ts ih =>
      rw [updatePropEdges]
      split
      · exact sameCore_trans (updatePropBody_core g pl u s q) (ih _ _)
      · exact ih s q

/-- The vertex scan of the propagation touches no core field. -/
theorem updatePropScan_core (g : Game) (pl n : Nat) (l : List Nat) (s : St)
    (q : List Nat) : sameCore s (updatePropScan g pl n l s q).1 := by
  induction l generalizing s q with
  | nil => exact sameCore_refl s
  | cons u us ih =>
      rw [updatePropScan]
      exact sameCore_trans (updatePropEdges_core g pl n u (g.adj u) s q) (ih _ _)

/-- The secondary worklist loop of `update` touches no core field. -/
theorem updatePropLoop_core (g : Game) (pl : Nat) (fuel : Nat) (s : St) (q : List Nat)
    (s1 : St) (h : updatePropLoop g pl fuel s q = some s1) : sameCore s s1 := by
  induction fuel generalizing s q with
  | zero =>
      rw [updatePropLoop.eq_def] at h
      dsimp only at h
      exact Option.noConfusion h
  | succ fuel ih =>
      rw [updatePropLoop.eq_def] at h
      cases q with
      | nil =>
          dsimp only at h
          injection h with h'
          subst h'
          exact sameCore_refl s
      | cons n rest =>
          dsimp only at h
          exact sameCore_trans (updatePropScan_core g pl n (List.range g.n) s rest)
            (ih _ _ h)

/-- The demotion loop of `update` preserves the books-balance invariant:
each demoted vertex trades one unit of `counts[priority]` against the
counted predicate flipping at that vertex. -/
theorem updateFinalLoop_countsInv (g : Game) (pl : Nat) (hpl : pl < 2) (l : List Nat) :
    (∀ i ∈ l, i < g.n) → ∀ s : St, countsInv g s →
      countsInv g (updateFinalLoop g pl l s) := by
  induction l with
  | nil =>
      intro _ s hinv
      exact hinv
  | cons i is ih =>
      intro hl s hinv
      rw [updateFinalLoop]
      split
      · rename_i hcond
        refine ih (fun j hj => hl j (List.mem_cons_of_mem i hj)) _ ?_
        refine countsInv_of_sameCore g _ _ (todo_push_core _ i) ?_
        intro j hjk
        have hjk' : j < s.k := hjk
        have hpar : g.priority i % 2 = 1 - pl := by
          have := hcond.2.2
          omega
        dsimp only
        by_cases hj : j = g.priority i
        · subst hj
          rw [upd_same, hinv _ hjk']
          have hflip := filter_card_flip g.n i (hl i (List.mem_cons_self i is))
            (fun v => g.priority v = g.priority i ∧ s.pms v (g.priority i % 2) ≠ -1)
            (fun v => g.priority v = g.priority i ∧
              (upd s.pms i (upd (s.pms i) (1 - pl) (-1))) v (g.priority i % 2) ≠ -1)
            (fun v hv => by dsimp only; rw [upd_ne _ _ _ _ hv])
            ⟨rfl, by rw [hpar]; exact hcond.2.1⟩
            (fun hc => hc.2 (by rw [upd_same, hpar, upd_same]))
          rw [hflip]
          push_cast
          ring
        · rw [upd_ne _ _ _ _ hj, hinv _ hjk']
          exact_mod_cast filter_card_iff g.n _ _ (by
            intro v hv
            by_cases hvn : v = i
            · subst hvn
              constructor
              · rintro ⟨hp, -⟩
                exact absurd hp.symm hj
              · rintro ⟨hp, -⟩
                exact absurd hp.symm hj
            · rw [upd_ne _ _ _ _ hvn])
      · exact ih (fun j hj => hl j (List.mem_cons_of_mem i hj)) s hinv

/-- A successful `update` pass preserves the books-balance invariant: the
seeding and propagation phases touch no core field, and the demotion
phase trades decrements against predicate flips. -/
theorem update_countsInv (g : Game) (pl fuel : Nat) (hpl : pl < 2) (s s' : St)
    (h : update g pl fuel s = some s') (hinv : countsInv g s) : countsInv g s' := by
  rw [update] at h
  cases hprop : updatePropLoop g pl fuel (updateSeedLoop g pl (List.range g.n) s []).1
      (updateSeedLoop g pl (List.range g.n) s []).2 with
  | none =>
      rw [hprop] at h
      exact Option.noConfusion h
  | some s1 =>
      rw [hprop] at h
      dsimp only at h
      injection h with h'
      subst h'
      refine updateFinalLoop_countsInv g pl hpl (List.range g.n)
        (fun j hj => List.mem_range.mp hj) s1 ?_
      refine countsInv_of_sameCore g s s1 ?_ hinv
      exact sameCore_trans (updateSeedLoop_core g pl (List.range g.n) s [])
        (updatePropLoop_core g pl fuel _ _ s1 hprop)

/-- C10: from the moment `counts` is initialized, `counts[i]` equals the
number of vertices of priority `i` whose player-`(i mod 2)` counter is
not `TOP`: the prologue establishes the equality, every `lift` (on a
vertex with an owner in `{0, 1}` and at least one out-edge) and every
completed stabilization pass preserves it, and under it every `counts`
entry is nonnegative (it is a cardinality); a decrement occurs only at a
finite-to-`TOP` flip of the counted counter, which `lift` never undoes,
so each vertex accounts for at most one decrement. -/
theorem counts_books_balance (g : Game) :
    (∀ s0 : St, countsInv g (resetState g s0)) ∧
    (∀ (s : St) (node : Nat) (target : Int), node < g.n → g.owner node < 2 →
        g.adj node ≠ [] → countsInv g s → countsInv g (lift g s node target).1) ∧
    (∀ (pl fuel : Nat) (s s' : St), pl < 2 → update g pl fuel s = some s' →
        countsInv g s → countsInv g s') ∧
    (∀ s : St, countsInv g s → ∀ i, i < s.k → 0 ≤ s.counts i) := by
  refine ⟨fun s0 => resetState_countsInv g s0,
    fun s node target hnode howner hadj hinv =>
      lift_countsInv g s node target hnode howner hadj hinv,
    fun pl fuel s s' hpl h hinv => update_countsInv g pl fuel hpl s s' h hinv,
    fun s hinv i hik => ?_⟩
  rw [hinv i hik]
  exact Int.natCast_nonneg _

/-- C10, witness: the invariant holds after initializing the one-vertex
self-loop game and is preserved by the first lift on it. -/
theorem counts_books_balance_witness :
    countsInv gLoop1 (resetState gLoop1 freshState) ∧
    countsInv gLoop1 (lift gLoop1 (resetState gLoop1 freshState) 0 (-1)).1 :=
  ⟨(counts_books_balance gLoop1).1 freshState,
    (counts_books_balance gLoop1).2.1 (resetState gLoop1 freshState) 0 (-1)
      (by decide) (by decide) (by decide)
      ((counts_books_balance gLoop1).1 freshState)⟩

/-! ## C5: definedness and validity of the returned strategy -/

/-- The minimizing scan's adopted target is the initial one or a member
of the scanned list. -/
theorem minProgLoop_bestTo_mem (counts : Nat → Int) (k d pl : Nat)
    (pms : Nat → Nat → Int) (l : List Nat) :
    ∀ (tmp best : Nat → Int) (b : Int),
      (minProgLoop counts k d pl pms l tmp best b).2.2 = b ∨
        ∃ t ∈ l, (minProgLoop counts k d pl pms l tmp best b).2.2 = Int.ofNat t := by
  induction l with
  | nil =>
      intro tmp best b
      exact Or.inl rfl
  | cons t rest ih =>
      intro tmp best b
      rw [minProgLoop]
      split
      · rcases ih (prog counts k tmp (pms t) d pl)
            (fun i => if i < k then prog counts k tmp (pms t) d pl i else best i)
            (Int.ofNat t) with h | ⟨u, hu, he⟩
        · exact Or.inr ⟨t, List.mem_cons_self t rest, h⟩
        · exact Or.inr ⟨u, List.mem_cons_of_mem t hu, he⟩
      · rcases ih (prog counts k tmp (pms t) d pl) best b with h | ⟨u, hu, he⟩
        · exact Or.inl h
        · exact Or.inr ⟨u, List.mem_cons_of_mem t hu, he⟩

/-- The opponent attempt's strategy output: untouched, or (when its guard
passed) overwritten at `node` with the minimizing scan's adopted target. -/
theorem liftOppAttempt_strategy (g : Game) (s : St) (node : Nat) (target : Int)
    (pms1 : Nat → Nat → Int) (tmp1 : Nat → Int) :
    (liftOppAttempt g s node target pms1 tmp1).2.2.2.1 = s.strategy ∨
      (liftOppAttempt g s node target pms1 tmp1).2.2.2.1
        = upd s.strategy node
            (minProgLoop s.counts s.k (g.priority node) (1 - g.owner node) pms1
              (g.adj node) tmp1 s.best (-1)).2.2 := by
  rw [liftOppAttempt]
  split
  · dsimp only
    split
    · exact Or.inr rfl
    · exact Or.inr rfl
  · exact Or.inl rfl

/-- `lift` only rewrites the strategy entry of the lifted vertex. -/
theorem lift_strategy_other (g : Game) (s : St) (node : Nat) (target : Int)
    (v : Nat) (hv : v ≠ node) :
    ((lift g s node target).1).strategy v = s.strategy v := by
  rw [lift]
  split
  · rfl
  · dsimp only
    rcases liftOppAttempt_strategy g s node target
        (liftOwnerAttempt g s node target).1 (liftOwnerAttempt g s node target).2.1 with
      h | h
    · rw [h]
    · rw [h, upd_ne _ _ _ _ hv]

/-- The lifted vertex's strategy entry is unchanged or replaced by the
opponent scan's adopted target. -/
theorem lift_strategy_self (g : Game) (s : St) (node : Nat) (target : Int) :
    ((lift g s node target).1).strategy node = s.strategy node ∨
      ((lift g s node target).1).strategy node
        = (minProgLoop s.counts s.k (g.priority node) (1 - g.owner node)
            (liftOwnerAttempt g s node target).1 (g.adj node)
            (liftOwnerAttempt g s node target).2.1 s.best (-1)).2.2 := by
  rw [lift]
  split
  · exact Or.inl rfl
  · dsimp only
    rcases liftOppAttempt_strategy g s node target
        (liftOwnerAttempt g s node target).1 (liftOwnerAttempt g s node target).2.1 with
      h | h
    · rw [h]
      exact Or.inl rfl
    · rw [h, upd_same]
      exact Or.inr rfl

/-- A hintless call (or one whose hint matches the recorded strategy) on
a vertex with a live opponent counter records a real strategy target:
the opponent attempt's guard passes and both of its branches write
`strategy[node] = best_to` with `best_to ≠ -1` on a nonempty edge list. -/
theorem lift_strategy_written (g : Game) (s : St) (node : Nat) (target : Int)
    (howner : g.owner node < 2) (hadj : g.adj node ≠ [])
    (hlive : s.pms node (1 - g.owner node) ≠ -1)
    (ht : target = -1 ∨ target = s.strategy node) :
    ((lift g s node target).1).strategy node ≠ -1 := by
  have hnb : ¬(s.pms node 0 = -1 ∧ s.pms node 1 = -1) := by
    rintro ⟨h0, h1⟩
    rcases (show 1 - g.owner node = 0 ∨ 1 - g.owner node = 1 by omega) with hq | hq
    · rw [hq] at hlive
      exact hlive h0
    · rw [hq] at hlive
      exact hlive h1
  rw [lift, if_neg hnb]
  dsimp only
  have hg : (liftOwnerAttempt g s node target).1 node (1 - g.owner node) ≠ -1 := by
    rw [liftOwnerAttempt_other_sentinel g s node target howner]
    exact hlive
  rw [liftOppAttempt, if_pos ⟨hg, ht⟩]
  dsimp only
  split
  · dsimp only
    rw [upd_same]
    exact minProgLoop_bestTo_ne _ _ _ _ _ _ _ _ _ (Or.inr hadj)
  · dsimp only
    rw [upd_same]
    exact minProgLoop_bestTo_ne _ _ _ _ _ _ _ _ _ (Or.inr hadj)

/-- A recorded strategy entry never reverts to `-1` across `lift` (the
vertex has an out-edge). -/
theorem lift_strategy_stays (g : Game) (s : St) (node : Nat) (target : Int)
    (v : Nat) (hadj : g.adj v ≠ []) (h : s.strategy v ≠ -1) :
    ((lift g s node target).1).strategy v ≠ -1 := by
  by_cases hvn : v = node
  · subst hvn
    rcases lift_strategy_self g s v target with h' | h'
    · rw [h']
      exact h
    · rw [h']
      exact minProgLoop_bestTo_ne _ _ _ _ _ _ _ _ _ (Or.inr hadj)
  · rw [lift_strategy_other g s node target v hvn]
    exact h

/-- The seeding disjunction — live opponent counter or recorded
strategy — survives any `lift`: the only writer of the opponent's
counter head is the opponent attempt, which always records a target. -/
theorem lift_opp_live_or_strat (g : Game) (s : St) (node : Nat) (target : Int)
    (v : Nat) (howner : g.owner v < 2) (hadj : g.adj v ≠ [])
    (h : s.pms v (1 - g.owner v) ≠ -1 ∨ s.strategy v ≠ -1) :
    ((lift g s node target).1).pms v (1 - g.owner v) ≠ -1 ∨
      ((lift g s node target).1).strategy v ≠ -1 := by
  rcases h with h | h
  · by_cases hvn : v = node
    · subst hvn
      by_cases hguard : (liftOwnerAttempt g s v target).1 v (1 - g.owner v) ≠ -1 ∧
          (target = -1 ∨ target = s.strategy v)
      · exact Or.inr (lift_strategy_written g s v target howner hadj h hguard.2)
      · refine Or.inl ?_
        have hnb : ¬(s.pms v 0 = -1 ∧ s.pms v 1 = -1) := by
          rintro ⟨h0, h1⟩
          rcases (show 1 - g.owner v = 0 ∨ 1 - g.owner v = 1 by omega) with hq | hq
          · rw [hq] at h
            exact h h0
          · rw [hq] at h
            exact h h1
        rw [lift, if_neg hnb]
        dsimp only
        rw [liftOppAttempt, if_neg hguard]
        dsimp only
        rw [liftOwnerAttempt_other_sentinel g s v target howner]
        exact h
    · refine Or.inl ?_
      rw [lift_pms_other g s node target v _ hvn]
      exact h
  · exact Or.inr (lift_strategy_stays g s node target v hadj h)

/-- `todo_push` leaves the strategy array alone. -/
theorem todo_push_strategy (s : St) (i : Nat) : (todo_push s i).strategy = s.strategy := by
  rw [todo_push]
  split
  · rfl
  · rfl

/-- `todo_push` preserves the strategy invariant. -/
theorem todo_push_stratInv (g : Game) (m : Nat) (s : St) (i : Nat)
    (hinv : stratInv g m s) : stratInv g m (todo_push s i) := by
  intro v hv
  rw [todo_push_strategy, todo_push_pms]
  exact hinv v hv

/-- One `lift` preserves the strategy invariant (all owners in `{0, 1}`,
all out-degrees positive). -/
theorem lift_stratInv (g : Game) (m : Nat) (s : St) (node : Nat) (target : Int)
    (howner : ∀ v, v < g.n → g.owner v < 2) (hadj : ∀ v, v < g.n → g.adj v ≠ [])
    (hinv : stratInv g m s) : stratInv g m (lift g s node target).1 := by
  intro v hv
  obtain ⟨hmem, hq, hp⟩ := hinv v hv
  refine ⟨?_, ?_, ?_⟩
  · by_cases hvn : v = node
    · subst hvn
      rcases lift_strategy_self g s v target with h' | h'
      · rw [h']
        exact hmem
      · rw [h']
        rcases minProgLoop_bestTo_mem s.counts s.k (g.priority v) (1 - g.owner v)
            (liftOwnerAttempt g s v target).1 (g.adj v)
            (liftOwnerAttempt g s v target).2.1 s.best (-1) with h | ⟨t, ht, he⟩
        · exact Or.inl h
        · exact Or.inr ⟨t, ht, he⟩
    · rw [lift_strategy_other g s node target v hvn]
      exact hmem
  · intro hmv
    exact lift_strategy_stays g s node target v (hadj v hv) (hq hmv)
  · exact lift_opp_live_or_strat g s node target v (howner v hv) (hadj v hv) hp

/-- The edge scan of the relaxation preserves the strategy invariant. -/
theorem relaxPredsEdges_stratInv (g : Game) (m n u : Nat)
    (howner : ∀ v, v < g.n → g.owner v < 2) (hadj : ∀ v, v < g.n → g.adj v ≠ [])
    (l : List Nat) :
    ∀ s : St, stratInv g m s → stratInv g m (relaxPredsEdges g n u l s) := by
  induction l with
  | nil =>
      intro s hinv
      exact hinv
  | cons t ts ih =>
      intro s hinv
      rw [relaxPredsEdges]
      split
      · dsimp only
        apply ih
        split
        · exact todo_push_stratInv g m _ u
            (lift_stratInv g m s u (Int.ofNat n) howner hadj hinv)
        · exact lift_stratInv g m s u (Int.ofNat n) howner hadj hinv
      · exact ih s hinv

/-- The predecessor scan of the relaxation preserves the strategy
invariant. -/
theorem relaxPreds_stratInv (g : Game) (m n : Nat)
    (howner : ∀ v, v < g.n → g.owner v < 2) (hadj : ∀ v, v < g.n → g.adj v ≠ [])
    (l : List Nat) :
    ∀ s : St, stratInv g m s → stratInv g m (relaxPreds g n l s) := by
  induction l with
  | nil =>
      intro s hinv
      exact hinv
  | cons u us ih =>
      intro s hinv
      rw [relaxPreds]
      exact ih _ (relaxPredsEdges_stratInv g m n u howner hadj (g.adj u) s hinv)

/-- The seeding loop lowers the frontier to `0`: after it, every vertex
has a recorded strategy target. -/
theorem initLoop_stratInv (g : Game)
    (howner : ∀ v, v < g.n → g.owner v < 2) (hadj : ∀ v, v < g.n → g.adj v ≠ []) :
    ∀ m : Nat, m ≤ g.n → ∀ s : St, stratInv g m s → stratInv g 0 (initLoop g m s) := by
  intro m
  induction m with
  | zero =>
      intro _ s hinv
      exact hinv
  | succ i ih =>
      intro hm s hinv
      have hi : i < g.n := hm
      have hQi : ((lift g s i (-1)).1).strategy i ≠ -1 := by
        rcases (hinv i hi).2.2 with hp | hs
        · exact lift_strategy_written g s i (-1) (howner i hi) (hadj i hi) hp (Or.inl rfl)
        · exact lift_strategy_stays g s i (-1) i (hadj i hi) hs
      have hinv1 : stratInv g i (lift g s i (-1)).1 := by
        have h' := lift_stratInv g (i + 1) s i (-1) howner hadj hinv
        intro v hv
        obtain ⟨hmem, hq, hp⟩ := h' v hv
        refine ⟨hmem, ?_, hp⟩
        intro hiv
        by_cases hvi : v = i
        · subst hvi
          exact hQi
        · exact hq (by omega)
      rw [initLoop]
      apply ih (by omega)
      split
      · exact relaxPreds_stratInv g i i howner hadj (List.range g.n) _ hinv1
      · exact hinv1

/-- `canlift` leaves the strategy array alone. -/
theorem canlift_strategy (g : Game) (s : St) (node pl : Nat) :
    ((canlift g s node pl).1).strategy = s.strategy := by
  rw [canlift]
  split
  · rfl
  · dsimp only
    split
    · rfl
    · split
      · rfl
      · rfl

/-- The seeding loop of `update` leaves the strategy array alone. -/
theorem updateSeedLoop_strategy (g : Game) (pl : Nat) (l : List Nat) :
    ∀ (s : St) (q : List Nat), ((updateSeedLoop g pl l s q).1).strategy = s.strategy := by
  induction l with
  | nil =>
      intro s q
      rfl
  | cons i is ih =>
      intro s q
      rw [updateSeedLoop]
      dsimp only
      split
      · exact ih _ _
      · split
        · exact (ih _ _).trans (canlift_strategy g _ i pl)
        · exact (ih _ _).trans (canlift_strategy g _ i pl)

/-- One propagation examination leaves the strategy array alone. -/
theorem updatePropBody_strategy (g : Game) (pl m : Nat) (s : St) (q : List Nat) :
    ((updatePropBody g pl m s q).1).strategy = s.strategy := by
  rw [updatePropBody]
  split
  · rfl
  · split
    · dsimp only
      split
      · rfl
      · split
        · rfl
        · rfl
    · rfl

/-- The propagation edge scan leaves the strategy array alone. -/
theorem updatePropEdges_strategy (g : Game) (pl n u : Nat) (l : List Nat) :
    ∀ (s : St) (q : List Nat),
      ((updatePropEdges g pl n u l s q).1).strategy = s.strategy := by
  induction l with
  | nil =>
      intro s q
      rfl
  | cons t ts ih =>
      intro s q
      rw [updatePropEdges]
      split
      · exact (ih _ _).trans (updatePropBody_strategy g pl u s q)
      · exact ih s q

/-- The propagation vertex scan leaves the strategy array alone. -/
theorem updatePropScan_strategy (g : Game) (pl n : Nat) (l : List Nat) :
    ∀ (s : St) (q : List Nat),
      ((updatePropScan g pl n l s q).1).strategy = s.strategy := by
  induction l with
  | nil =>
      intro s q
      rfl
  | cons u us ih =>
      intro s q
      rw [updatePropScan]
      exact (ih _ _).trans (updatePropEdges_strategy g pl n u (g.adj u) s q)

/-- The secondary worklist loop of `update` leaves the strategy array
alone. -/
theorem updatePropLoop_strategy (g : Game) (pl : Nat) :
    ∀ (fuel : Nat) (s : St) (q : List Nat) (s1 : St),
      updatePropLoop g pl fuel s q = some s1 → s1.strategy = s.strategy := by
  intro fuel
  induction fuel with
  | zero =>
      intro s q s1 h
      rw [updatePropLoop.eq_def] at h
      dsimp only at h
      exact Option.noConfusion h
  | succ fuel ih =>
      intro s q s1 h
      rw [updatePropLoop.eq_def] at h
      cases q with
      | nil =>
          dsimp only at h
          injection h with h'
          subst h'
          rfl
      | cons n rest =>
          dsimp only at h
          exact (ih _ _ _ h).trans (updatePropScan_strategy g pl n (List.range g.n) s rest)

/-- The demotion loop of `update` leaves the strategy array alone. -/
theorem updateFinalLoop_strategy (g : Game) (pl : Nat) (l : List Nat) :
    ∀ s : St, ((updateFinalLoop g pl l s)).strategy = s.strategy := by
  induction l with
  | nil =>
      intro s
      rfl
  | cons i is ih =>
      intro s
      rw [updateFinalLoop]
      split
      · exact (ih _).trans (todo_push_strategy _ i)
      · exact ih s

/-- A stabilization pass leaves the strategy array alone. -/
theorem update_strategy (g : Game) (pl fuel : Nat) (s s' : St)
    (h : update g pl fuel s = some s') : s'.strategy = s.strategy := by
  rw [update] at h
  cases hprop : updatePropLoop g pl fuel (updateSeedLoop g pl (List.range g.n) s []).1
      (updateSeedLoop g pl (List.range g.n) s []).2 with
  | none =>
      rw [hprop] at h
      exact Option.noConfusion h
  | some s1 =>
      rw [hprop] at h
      dsimp only at h
      injection h with h'
      subst h'
      rw [updateFinalLoop_strategy g pl (List.range g.n) s1,
        updatePropLoop_strategy g pl fuel _ _ s1 hprop,
        updateSeedLoop_strategy g pl (List.range g.n) s []]

/-- Once the frontier is `0`, the invariant only depends on the strategy
array. -/
theorem stratInv_zero_of_strategy_eq (g : Game) (s s' : St)
    (hstrat : s'.strategy = s.strategy) (hinv : stratInv g 0 s) : stratInv g 0 s' := by
  intro v hv
  obtain ⟨hmem, hq, -⟩ := hinv v hv
  rw [hstrat]
  exact ⟨hmem, fun _ => hq (Nat.zero_le v), Or.inr (hq (Nat.zero_le v))⟩

/-- The main worklist loop preserves the closed strategy invariant. -/
theorem mainLoop_stratInv (g : Game) (ufuel : Nat)
    (howner : ∀ v, v < g.n → g.owner v < 2) (hadj : ∀ v, v < g.n → g.adj v ≠ []) :
    ∀ (fuel : Nat) (lastUpdate : Int) (s sF : St),
      mainLoop g ufuel fuel lastUpdate s = some sF →
      stratInv g 0 s → stratInv g 0 sF := by
  intro fuel
  induction fuel with
  | zero =>
      intro lu s sF h hinv
      rw [mainLoop] at h
      by_cases ht : s.todo = []
      · rw [if_pos ht] at h
        injection h with h'
        subst h'
        exact hinv
      · rw [if_neg ht] at h
        exact Option.noConfusion h
  | succ fuel ih =>
      intro lu s sF h hinv
      rw [mainLoop] at h
      cases hq : s.todo with
      | nil =>
          rw [hq] at h
          dsimp only at h
          injection h with h'
          subst h'
          exact hinv
      | cons n rest =>
          rw [hq] at h
          dsimp only at h
          have hinv1 : stratInv g 0 (relaxPreds g n (List.range g.n)
              { s with todo := rest, dirty := upd s.dirty n 0 }) :=
            relaxPreds_stratInv g 0 n howner hadj (List.range g.n) _
              (fun v hv => hinv v hv)
          split at h
          · cases hu0 : update g 0 ufuel (relaxPreds g n (List.range g.n)
                { s with todo := rest, dirty := upd s.dirty n 0 }) with
            | none =>
                rw [hu0] at h
                exact Option.noConfusion h
            | some s2 =>
                rw [hu0] at h
                dsimp only at h
                cases hu1 : update g 1 ufuel s2 with
                | none =>
                    rw [hu1] at h
                    exact Option.noConfusion h
                | some s3 =>
                    rw [hu1] at h
                    dsimp only at h
                    refine ih _ _ _ h ?_
                    refine stratInv_zero_of_strategy_eq g s2 s3
                      (update_strategy g 1 ufuel s2 s3 hu1) ?_
                    exact stratInv_zero_of_strategy_eq g _ s2
                      (update_strategy g 0 ufuel _ s2 hu0) hinv1
          · exact ih _ _ _ h hinv1

/-- After a converged `solveState`, every vertex of the game has a
recorded out-edge strategy target. -/
theorem solveState_stratInv (g : Game) (fuel ufuel : Nat) (s0 sF : St)
    (howner : ∀ v, v < g.n → g.owner v < 2) (hadj : ∀ v, v < g.n → g.adj v ≠ [])
    (h : solveState g fuel ufuel s0 = some sF) : stratInv g 0 sF := by
  have hreset : stratInv g g.n (resetState g s0) := by
    intro v hv
    refine ⟨Or.inl ?_, fun hge => absurd hv (by omega), Or.inl ?_⟩
    · show (if v < g.n then (-1 : Int) else s0.strategy v) = -1
      rw [if_pos hv]
    · show (if v < g.n ∧ 1 - g.owner v < max (get_max_priority g + 1) 2 then (0 : Int)
          else s0.pms v (1 - g.owner v)) ≠ -1
      have h2 : 2 ≤ max (get_max_priority g + 1) 2 := Nat.le_max_right _ _
      rw [if_pos ⟨hv, by omega⟩]
      decide
  exact mainLoop_stratInv g ufuel howner hadj fuel 0 _ sF h
    (initLoop_stratInv g howner hadj g.n (le_refl _) _ hreset)

/-- C5: after `solve` converges on a game whose owners are in `{0, 1}`
and whose vertices all have an out-edge, the returned strategy mapping is
defined at `v` exactly when `owner(v)` equals the recorded winner of `v`,
and a defined entry maps `v` to one of its out-edge targets. -/
theorem strategy_defined_iff_owner_wins (g : Game) (fuel ufuel : Nat) (s0 sF : St)
    (howner : ∀ v, v < g.n → g.owner v < 2) (hadj : ∀ v, v < g.n → g.adj v ≠ [])
    (h : solveState g fuel ufuel s0 = some sF) (v : Nat) (hv : v < g.n) :
    ((solutionStrategy g sF v).isSome = true ↔ g.owner v = winnerOf sF v) ∧
    ∀ t, solutionStrategy g sF v = some t → t ∈ g.adj v := by
  obtain ⟨hmem, hq, -⟩ := solveState_stratInv g fuel ufuel s0 sF howner hadj h v hv
  have hne : sF.strategy v ≠ -1 := hq (Nat.zero_le v)
  rcases hmem with hmem | ⟨t, ht, he⟩
  · exact absurd hmem hne
  constructor
  · rw [solutionStrategy]
    constructor
    · intro hs
      by_cases hc : g.owner v = winnerOf sF v ∧ sF.strategy v ≠ -1
      · exact hc.1
      · rw [if_neg hc] at hs
        simp at hs
    · intro hw
      rw [if_pos ⟨hw, hne⟩]
      rfl
  · intro u hu
    rw [solutionStrategy] at hu
    by_cases hc : g.owner v = winnerOf sF v ∧ sF.strategy v ≠ -1
    · rw [if_pos hc] at hu
      injection hu with hu'
      subst hu'
      rw [he]
      simpa using ht
    · rw [if_neg hc] at hu
      exact Option.noConfusion hu

/-! ## C9: observational congruence of the solver -/

/-- `obsEq` makes the sentinel reads agree. -/
theorem obsEq_top (k pl : Nat) (a b : Nat → Int) (hpl : pl < 2) (hk : 2 ≤ k)
    (h : obsEq k pl a b) : (a pl = -1 ↔ b pl = -1) := by
  rcases h with ⟨h1, h2⟩ | h
  · exact ⟨fun _ => h2, fun _ => h1⟩
  · rw [h pl (by omega) (by omega)]

/-- `obsEq` on non-`TOP` slices gives coordinate agreement. -/
theorem obsEq_vals (k pl : Nat) (a b : Nat → Int) (h : obsEq k pl a b)
    (ha : a pl ≠ -1) : ∀ j, j < k → j % 2 = pl → a j = b j := by
  rcases h with ⟨h1, -⟩ | h
  · exact absurd h1 ha
  · exact h

theorem obsEq_refl (k pl : Nat) (a : Nat → Int) : obsEq k pl a a :=
  Or.inr fun _ _ _ => rfl

/-- One comparison step reads only the current coordinate. -/
theorem pm_lessAt_congr (counts counts' a a' b b' : Nat → Int) (d i : Nat)
    (rest rest' : Bool) (hc : counts i = counts' i) (ha : a i = a' i)
    (hb : b i = b' i) (hr : rest = rest') :
    pm_lessAt counts a b d i rest = pm_lessAt counts' a' b' d i rest' := by
  rw [pm_lessAt, pm_lessAt, hc, ha, hb, hr]

/-- The descending scan reads only the visited coordinates: those of the
start index's parity, below it. -/
theorem pm_lessLoop_congr (counts counts' a a' b b' : Nat → Int) (d : Nat) :
    ∀ i : Nat,
      (∀ j, j ≤ i → j % 2 = i % 2 → counts j = counts' j ∧ a j = a' j ∧ b j = b' j) →
      pm_lessLoop counts a b d i = pm_lessLoop counts' a' b' d i
  | 0, h => by
      obtain ⟨hc, ha, hb⟩ := h 0 le_rfl rfl
      rw [pm_lessLoop, pm_lessLoop]
      exact pm_lessAt_congr _ _ _ _ _ _ d 0 false false hc ha hb rfl
  | 1, h => by
      obtain ⟨hc, ha, hb⟩ := h 1 le_rfl rfl
      rw [pm_lessLoop, pm_lessLoop]
      exact pm_lessAt_congr _ _ _ _ _ _ d 1 false false hc ha hb rfl
  | i + 2, h => by
      obtain ⟨hc, ha, hb⟩ := h (i + 2) le_rfl rfl
      rw [pm_lessLoop, pm_lessLoop]
      exact pm_lessAt_congr _ _ _ _ _ _ d (i + 2) _ _ hc ha hb
        (pm_lessLoop_congr counts counts' a a' b b' d i
          (fun j hj hjp => h j (by omega) (by omega)))

/-- `pm_less` is determined by the player's observational views and the
live `counts` window. -/
theorem pm_less_congr (counts counts' : Nat → Int) (k : Nat) (a a' b b' : Nat → Int)
    (d pl : Nat) (hpl : pl < 2) (hk : 2 ≤ k)
    (hc : ∀ j, j < k → counts j = counts' j)
    (ha : obsEq k pl a a') (hb : obsEq k pl b b') :
    pm_less counts k a b d pl = pm_less counts' k a' b' d pl := by
  have hat := obsEq_top k pl a a' hpl hk ha
  have hbt := obsEq_top k pl b b' hpl hk hb
  rw [pm_less, pm_less]
  by_cases h1 : b pl = -1
  · rw [if_pos h1, if_pos (hbt.mp h1)]
    exact decide_eq_decide.mpr (not_congr hat)
  · rw [if_neg h1, if_neg (fun h => h1 (hbt.mpr h))]
    by_cases h2 : a pl = -1
    · rw [if_pos h2, if_pos (hat.mp h2)]
    · rw [if_neg h2, if_neg (fun h => h2 (hat.mpr h))]
      have ha' := obsEq_vals k pl a a' ha h2
      have hb' := obsEq_vals k pl b b' hb h1
      apply pm_lessLoop_congr
      intro j hj hjp
      have hstart : (if k % 2 = pl then k - 2 else k - 1) < k ∧
          (if k % 2 = pl then k - 2 else k - 1) % 2 = pl := by
        split <;> omega
      exact ⟨hc j (by omega), ha' j (by omega) (by omega), hb' j (by omega) (by omega)⟩

/-- The carry chain reads only `src` and `counts` along its coordinate
list; its carry and its writes are congruent. -/
theorem progCarry_congr (counts counts' src src' : Nat → Int) :
    ∀ (L : List Nat) (dst dst' : Nat → Int) (c : Int),
      (∀ j ∈ L, counts j = counts' j ∧ src j = src' j) →
      (progCarry counts src L dst c).2 = (progCarry counts' src' L dst' c).2 ∧
      ∀ j ∈ L, (progCarry counts src L dst c).1 j = (progCarry counts' src' L dst' c).1 j
  | [], dst, dst', c, _ => ⟨rfl, fun j hj => absurd hj (List.not_mem_nil j)⟩
  | i :: rest, dst, dst', c, h => by
      obtain ⟨hci, hsi⟩ := h i (List.mem_cons_self i rest)
      rw [progCarry, progCarry, hci, hsi]
      have hrest : ∀ j ∈ rest, counts j = counts' j ∧ src j = src' j :=
        fun j hj => h j (List.mem_cons_of_mem i hj)
      split
      · obtain ⟨hcar, hval⟩ :=
          progCarry_congr counts counts' src src' rest (upd dst i 0) (upd dst' i 0) 1 hrest
        refine ⟨hcar, ?_⟩
        intro j hj
        rcases List.mem_cons.mp hj with rfl | hjr
        · by_cases hjrest : j ∈ rest
          · exact hval j hjrest
          · rw [progCarry_unchanged _ _ _ _ _ _ hjrest,
              progCarry_unchanged _ _ _ _ _ _ hjrest, upd_same, upd_same]
        · exact hval j hjr
      · obtain ⟨hcar, hval⟩ :=
          progCarry_congr counts counts' src src' rest (upd dst i (src' i + c))
            (upd dst' i (src' i + c)) 0 hrest
        refine ⟨hcar, ?_⟩
        intro j hj
        rcases List.mem_cons.mp hj with rfl | hjr
        · by_cases hjrest : j ∈ rest
          · exact hval j hjrest
          · rw [progCarry_unchanged _ _ _ _ _ _ hjrest,
              progCarry_unchanged _ _ _ _ _ _ hjrest, upd_same, upd_same]
        · exact hval j hjr

/-- `prog` is observationally congruent: the player's view of the result
depends only on the player's view of the source and the live `counts`
window, never on the scratch `dst`. -/
theorem prog_congr (counts counts' : Nat → Int) (k : Nat) (dst dst' src src' : Nat → Int)
    (d pl : Nat) (hpl : pl < 2) (hk : 2 ≤ k)
    (hc : ∀ j, j < k → counts j = counts' j)
    (hs : obsEq k pl src src') :
    obsEq k pl (prog counts k dst src d pl) (prog counts' k dst' src' d pl) := by
  have hst := obsEq_top k pl src src' hpl hk hs
  rw [prog, prog]
  by_cases htop : src pl = -1
  · rw [if_pos htop, if_pos (hst.mp htop)]
    exact Or.inl ⟨upd_same _ _ _, upd_same _ _ _⟩
  · rw [if_neg htop, if_neg (fun h => htop (hst.mpr h))]
    have hs' := obsEq_vals k pl src src' hs htop
    have hfge := firstGE_facts pl d hpl
    have hge := firstGE_ge pl d
    have hLH : ∀ j ∈ upBy2 k (firstGE pl d), counts j = counts' j ∧ src j = src' j := by
      intro j hj
      rw [upBy2_mem] at hj
      exact ⟨hc j hj.1, hs' j hj.1 (by omega)⟩
    obtain ⟨hcar, hval⟩ := progCarry_congr counts counts' src src'
      (upBy2 k (firstGE pl d)) (progReset dst d pl) (progReset dst' d pl)
      (if d % 2 = pl then 1 else 0) hLH
    dsimp only
    by_cases hcy : (progCarry counts src (upBy2 k (firstGE pl d)) (progReset dst d pl)
        (if d % 2 = pl then 1 else 0)).2 ≠ 0
    · have hcy' : (progCarry counts' src' (upBy2 k (firstGE pl d)) (progReset dst' d pl)
          (if d % 2 = pl then 1 else 0)).2 ≠ 0 := by
        rw [← hcar]
        exact hcy
      rw [if_pos hcy, if_pos hcy']
      exact Or.inl ⟨upd_same _ _ _, upd_same _ _ _⟩
    · have hcy' : ¬(progCarry counts' src' (upBy2 k (firstGE pl d)) (progReset dst' d pl)
          (if d % 2 = pl then 1 else 0)).2 ≠ 0 := by
        rw [← hcar]
        exact hcy
      rw [if_neg hcy, if_neg hcy']
      refine Or.inr ?_
      intro j hj hjp
      by_cases hmem : j ∈ upBy2 k (firstGE pl d)
      · exact hval j hmem
      · have hfcases : (d ≤ pl ∧ firstGE pl d = pl) ∨
            (¬d ≤ pl ∧ d % 2 = pl % 2 ∧ firstGE pl d = d) ∨
            (¬d ≤ pl ∧ d % 2 ≠ pl % 2 ∧ firstGE pl d = d + 1) := by
          unfold firstGE
          by_cases h1 : d ≤ pl
          · rw [if_pos h1]
            exact Or.inl ⟨h1, rfl⟩
          · rw [if_neg h1]
            by_cases h2 : d % 2 = pl % 2
            · rw [if_pos h2]
              exact Or.inr (Or.inl ⟨h1, h2, rfl⟩)
            · rw [if_neg h2]
              exact Or.inr (Or.inr ⟨h1, h2, rfl⟩)
        have hjd : pl ≤ j ∧ j < d ∧ (j - pl) % 2 = 0 := by
          rw [upBy2_mem] at hmem
          omega
        rw [progCarry_unchanged _ _ _ _ _ _ hmem,
          progCarry_unchanged _ _ _ _ _ _ hmem, progReset, progReset,
          if_pos hjd, if_pos hjd]

/-- `pm_copy` is observationally congruent for every player: the copied
window is the source's player view, the rest is the destination's. -/
theorem pm_copy_obsEq (k pl q : Nat) (dst dst' srcX srcX' : Nat → Int)
    (hpl : pl < 2) (hq : q < 2) (hk : 2 ≤ k)
    (hdst : obsEq k q dst dst') (hsrc : obsEq k pl srcX srcX') :
    obsEq k q (pm_copy dst srcX k pl) (pm_copy dst' srcX' k pl) := by
  by_cases hqpl : q = pl
  · subst hqpl
    rcases hsrc with ⟨h1, h2⟩ | hvals
    · refine Or.inl ⟨?_, ?_⟩
      · rw [pm_copy, if_pos ⟨le_rfl, by omega, by omega⟩]
        exact h1
      · rw [pm_copy, if_pos ⟨le_rfl, by omega, by omega⟩]
        exact h2
    · refine Or.inr ?_
      intro j hj hjp
      rw [pm_copy, pm_copy]
      by_cases hcopy : q ≤ j ∧ j < k ∧ (j - q) % 2 = 0
      · rw [if_pos hcopy, if_pos hcopy]
        exact hvals j hj hjp
      · exact absurd ⟨by omega, hj, by omega⟩ hcopy
  · rcases hdst with ⟨h1, h2⟩ | hvals
    · refine Or.inl ⟨?_, ?_⟩
      · rw [pm_copy, if_neg (by omega)]
        exact h1
      · rw [pm_copy, if_neg (by omega)]
        exact h2
    · refine Or.inr ?_
      intro j hj hjp
      rw [pm_copy, pm_copy, if_neg (by omega), if_neg (by omega)]
      exact hvals j hj hjp

/-- Updating one slice observationally congruently preserves the map-wide
observational agreement. -/
theorem obsEq_upd_map (n k : Nat) (node : Nat) (pms pms' : Nat → Nat → Int)
    (a a' : Nat → Int)
    (hinv : ∀ v, v < n → ∀ q, q < 2 → obsEq k q (pms v) (pms' v))
    (ha : ∀ q, q < 2 → obsEq k q a a') :
    ∀ v, v < n → ∀ q, q < 2 → obsEq k q (upd pms node a v) (upd pms' node a' v) := by
  intro v hv q hq
  by_cases hvn : v = node
  · subst hvn
    rw [upd_same, upd_same]
    exact ha q hq
  · rw [upd_ne _ _ _ _ hvn, upd_ne _ _ _ _ hvn]
    exact hinv v hv q hq

/-- The minimizing scan is observationally congruent: equal adopted
targets, and (once one is adopted) observationally equal `best`. -/
theorem minProgLoop_congr (counts counts' : Nat → Int) (k d pl : Nat)
    (pms pms' : Nat → Nat → Int) (hpl : pl < 2) (hk : 2 ≤ k)
    (hc : ∀ j, j < k → counts j = counts' j) :
    ∀ (l : List Nat) (tmp tmp' best best' : Nat → Int) (b : Int),
      (∀ t ∈ l, obsEq k pl (pms t) (pms' t)) →
      (b = -1 ∨ obsEq k pl best best') →
      (minProgLoop counts k d pl pms l tmp best b).2.2
          = (minProgLoop counts' k d pl pms' l tmp' best' b).2.2 ∧
      ((minProgLoop counts k d pl pms l tmp best b).2.2 = -1 ∨
        obsEq k pl (minProgLoop counts k d pl pms l tmp best b).2.1
          (minProgLoop counts' k d pl pms' l tmp' best' b).2.1) := by
  intro l
  induction l with
  | nil =>
      intro tmp tmp' best best' b hsrc hbest
      refine ⟨rfl, ?_⟩
      rcases hbest with h | h
      · exact Or.inl h
      · exact Or.inr h
  | cons t rest ih =>
      intro tmp tmp' best best' b hsrc hbest
      rw [minProgLoop, minProgLoop]
      have htmp : obsEq k pl (prog counts k tmp (pms t) d pl)
          (prog counts' k tmp' (pms' t) d pl) :=
        prog_congr counts counts' k tmp tmp' (pms t) (pms' t) d pl hpl hk hc
          (hsrc t (List.mem_cons_self t rest))
      have hrest : ∀ u ∈ rest, obsEq k pl (pms u) (pms' u) :=
        fun u hu => hsrc u (List.mem_cons_of_mem t hu)
      by_cases hcond : b = -1 ∨
          pm_less counts k (prog counts k tmp (pms t) d pl) best d pl = true
      · have hcond' : b = -1 ∨
            pm_less counts' k (prog counts' k tmp' (pms' t) d pl) best' d pl = true := by
          rcases hcond with h | h
          · exact Or.inl h
          · rcases hbest with rfl | hbe
            · exact Or.inl rfl
            · refine Or.inr ?_
              rw [← pm_less_congr counts counts' k _ _ best best' d pl hpl hk hc htmp hbe]
              exact h
        rw [if_pos hcond, if_pos hcond']
        apply ih
        · exact hrest
        · refine Or.inr ?_
          rcases htmp with ⟨h1, h2⟩ | hvals
          · refine Or.inl ⟨?_, ?_⟩
            · dsimp only
              rw [if_pos (show pl < k by omega)]
              exact h1
            · dsimp only
              rw [if_pos (show pl < k by omega)]
              exact h2
          · refine Or.inr ?_
            intro j hj hjp
            dsimp only
            rw [if_pos hj, if_pos hj]
            exact hvals j hj hjp
      · have hcond' : ¬(b = -1 ∨
            pm_less counts' k (prog counts' k tmp' (pms' t) d pl) best' d pl = true) := by
          intro hcp
          apply hcond
          rcases hcp with h | h
          · exact Or.inl h
          · rcases hbest with rfl | hbe
            · exact Or.inl rfl
            · refine Or.inr ?_
              rw [pm_less_congr counts counts' k _ _ best best' d pl hpl hk hc htmp hbe]
              exact h
        rw [if_neg hcond, if_neg hcond']
        exact ih _ _ _ _ _ hrest hbest

/-- The owner check scan of `canlift` is observationally congruent. -/
theorem canliftOwnerLoop_congr (counts counts' : Nat → Int) (k : Nat)
    (pm pm' : Nat → Int) (d pl : Nat) (pms pms' : Nat → Nat → Int)
    (hpl : pl < 2) (hk : 2 ≤ k) (hc : ∀ j, j < k → counts j = counts' j)
    (hpm : obsEq k pl pm pm') :
    ∀ (l : List Nat) (tmp tmp' : Nat → Int),
      (∀ t ∈ l, obsEq k pl (pms t) (pms' t)) →
      (canliftOwnerLoop counts k pm d pl pms l tmp).1
        = (canliftOwnerLoop counts' k pm' d pl pms' l tmp').1 := by
  intro l
  induction l with
  | nil =>
      intro tmp tmp' _
      rfl
  | cons t rest ih =>
      intro tmp tmp' hsrc
      rw [canliftOwnerLoop, canliftOwnerLoop]
      have htmp : obsEq k pl (prog counts k tmp (pms t) d pl)
          (prog counts' k tmp' (pms' t) d pl) :=
        prog_congr counts counts' k tmp tmp' (pms t) (pms' t) d pl hpl hk hc
          (hsrc t (List.mem_cons_self t rest))
      have hless := pm_less_congr counts counts' k pm pm' _ _ d pl hpl hk hc hpm htmp
      by_cases hcond : pm_less counts k pm (prog counts k tmp (pms t) d pl) d pl = true
      · rw [if_pos hcond, if_pos (by rw [← hless]; exact hcond)]
      · rw [if_neg hcond, if_neg (by rw [← hless]; exact hcond)]
        exact ih _ _ (fun u hu => hsrc u (List.mem_cons_of_mem t hu))

/-- The in-place owner raise scan of `lift` is observationally congruent:
equal adopted-target flags and observationally equal measure maps. -/
theorem liftOwnerLoop_congr (counts counts' : Nat → Int) (n k : Nat) (node d pl : Nat)
    (hpl : pl < 2) (hk : 2 ≤ k) (hnode : node < n)
    (hc : ∀ j, j < k → counts j = counts' j) :
    ∀ (l : List Nat) (pms pms' : Nat → Nat → Int) (tmp tmp' : Nat → Int) (bch : Int),
      (∀ t ∈ l, t < n) →
      (∀ v, v < n → ∀ q, q < 2 → obsEq k q (pms v) (pms' v)) →
      (liftOwnerLoop counts k node d pl l pms tmp bch).2.2
          = (liftOwnerLoop counts' k node d pl l pms' tmp' bch).2.2 ∧
      (∀ v, v < n → ∀ q, q < 2 →
        obsEq k q ((liftOwnerLoop counts k node d pl l pms tmp bch).1 v)
          ((liftOwnerLoop counts' k node d pl l pms' tmp' bch).1 v)) := by
  intro l
  induction l with
  | nil =>
      intro pms pms' tmp tmp' bch _ hinv
      exact ⟨rfl, hinv⟩
  | cons t rest ih =>
      intro pms pms' tmp tmp' bch hlt hinv
      rw [liftOwnerLoop, liftOwnerLoop]
      have htmp : obsEq k pl (prog counts k tmp (pms t) d pl)
          (prog counts' k tmp' (pms' t) d pl) :=
        prog_congr counts counts' k tmp tmp' (pms t) (pms' t) d pl hpl hk hc
          (hinv t (hlt t (List.mem_cons_self t rest)) pl hpl)
      have hless := pm_less_congr counts counts' k (pms node) (pms' node) _ _ d pl hpl hk
        hc (hinv node hnode pl hpl) htmp
      have hrest : ∀ u ∈ rest, u < n := fun u hu => hlt u (List.mem_cons_of_mem t hu)
      by_cases hcond : pm_less counts k (pms node) (prog counts k tmp (pms t) d pl) d pl
          = true
      · rw [if_pos hcond, if_pos (by rw [← hless]; exact hcond)]
        apply ih _ _ _ _ _ hrest
        apply obsEq_upd_map n k node pms pms' _ _ hinv
        intro q hq
        exact pm_copy_obsEq k pl q (pms node) (pms' node) _ _ hpl hq hk
          (hinv node hnode q hq) htmp
      · rw [if_neg hcond, if_neg (by rw [← hless]; exact hcond)]
        exact ih _ _ _ _ _ hrest hinv

/-- The owner attempt of `lift` is observationally congruent. -/
theorem liftOwnerAttempt_congr (g : Game) (s s' : St) (node : Nat) (target : Int)
    (hk : s'.k = s.k) (hk2 : 2 ≤ s.k)
    (hc : ∀ j, j < s.k → s.counts j = s'.counts j)
    (hpms : ∀ v, v < g.n → ∀ q, q < 2 → obsEq s.k q (s.pms v) (s'.pms v))
    (hnode : node < g.n) (howner : g.owner node < 2)
    (hrange : ∀ t ∈ g.adj node, t < g.n)
    (htarget : target ≠ -1 → target.toNat < g.n) :
    (liftOwnerAttempt g s node target).2.2 = (liftOwnerAttempt g s' node target).2.2 ∧
    (∀ v, v < g.n → ∀ q, q < 2 →
      obsEq s.k q ((liftOwnerAttempt g s node target).1 v)
        ((liftOwnerAttempt g s' node target).1 v)) := by
  have hown := obsEq_top s.k (g.owner node) (s.pms node) (s'.pms node) howner hk2
    (hpms node hnode (g.owner node) howner)
  rw [liftOwnerAttempt, liftOwnerAttempt, hk]
  by_cases hg1 : s.pms node (g.owner node) = -1
  · rw [if_pos hg1, if_pos (hown.mp hg1)]
    exact ⟨rfl, hpms⟩
  · rw [if_neg hg1, if_neg (fun h => hg1 (hown.mpr h))]
    by_cases ht : target ≠ -1
    · rw [if_pos ht, if_pos ht]
      dsimp only
      have htmp : obsEq s.k (g.owner node)
          (prog s.counts s.k s.tmp (s.pms target.toNat) (g.priority node) (g.owner node))
          (prog s'.counts s.k s'.tmp (s'.pms target.toNat) (g.priority node)
            (g.owner node)) :=
        prog_congr s.counts s'.counts s.k s.tmp s'.tmp _ _ _ _ howner hk2 hc
          (hpms target.toNat (htarget ht) (g.owner node) howner)
      have hless := pm_less_congr s.counts s'.counts s.k (s.pms node) (s'.pms node) _ _
        (g.priority node) (g.owner node) howner hk2 hc (hpms node hnode _ howner) htmp
      by_cases hcond : pm_less s.counts s.k (s.pms node)
          (prog s.counts s.k s.tmp (s.pms target.toNat) (g.priority node) (g.owner node))
          (g.priority node) (g.owner node) = true
      · rw [if_pos hcond, if_pos (by rw [← hless]; exact hcond)]
        refine ⟨rfl, ?_⟩
        apply obsEq_upd_map g.n s.k node _ _ _ _ hpms
        intro q hq
        exact pm_copy_obsEq s.k (g.owner node) q _ _ _ _ howner hq hk2
          (hpms node hnode q hq) htmp
      · rw [if_neg hcond, if_neg (by rw [← hless]; exact hcond)]
        exact ⟨rfl, hpms⟩
    · rw [if_neg ht, if_neg ht]
      exact liftOwnerLoop_congr s.counts s'.counts g.n s.k node (g.priority node)
        (g.owner node) howner hk2 hnode hc (g.adj node) s.pms s'.pms s.tmp s'.tmp (-1)
        hrange hpms

/-- The opponent attempt of `lift` is observationally congruent. -/
theorem liftOppAttempt_congr (g : Game) (s s' : St) (node : Nat) (target : Int)
    (pms1 pms1' : Nat → Nat → Int) (tmp1 tmp1' : Nat → Int)
    (hk : s'.k = s.k) (hk2 : 2 ≤ s.k)
    (hc : ∀ j, j < s.k → s.counts j = s'.counts j)
    (hpms : ∀ v, v < g.n → ∀ q, q < 2 → obsEq s.k q (pms1 v) (pms1' v))
    (hstr : ∀ v, v < g.n → s'.strategy v = s.strategy v)
    (hnode : node < g.n) (howner : g.owner node < 2) (hadjne : g.adj node ≠ [])
    (hrange : ∀ t ∈ g.adj node, t < g.n) :
    (liftOppAttempt g s node target pms1 tmp1).2.2.2.2
        = (liftOppAttempt g s' node target pms1' tmp1').2.2.2.2 ∧
    (∀ v, v < g.n → ∀ q, q < 2 →
      obsEq s.k q ((liftOppAttempt g s node target pms1 tmp1).1 v)
        ((liftOppAttempt g s' node target pms1' tmp1').1 v)) ∧
    (∀ v, v < g.n →
      (liftOppAttempt g s' node target pms1' tmp1').2.2.2.1 v
        = (liftOppAttempt g s node target pms1 tmp1).2.2.2.1 v) := by
  have hpl1 : 1 - g.owner node < 2 := by omega
  have hopp := obsEq_top s.k (1 - g.owner node) (pms1 node) (pms1' node) hpl1 hk2
    (hpms node hnode (1 - g.owner node) hpl1)
  rw [liftOppAttempt, liftOppAttempt, hk]
  by_cases hguard : pms1 node (1 - g.owner node) ≠ -1 ∧
      (target = -1 ∨ target = s.strategy node)
  · have hguard' : pms1' node (1 - g.owner node) ≠ -1 ∧
        (target = -1 ∨ target = s'.strategy node) := by
      refine ⟨fun h => hguard.1 (hopp.mpr h), ?_⟩
      rw [hstr node hnode]
      exact hguard.2
    rw [if_pos hguard, if_pos hguard']
    dsimp only
    have hmin := minProgLoop_congr s.counts s'.counts s.k (g.priority node)
      (1 - g.owner node) pms1 pms1' hpl1 hk2 hc (g.adj node) tmp1 tmp1' s.best s'.best
      (-1) (fun t htm => hpms t (hrange t htm) _ hpl1) (Or.inl rfl)
    have hbe : obsEq s.k (1 - g.owner node)
        (minProgLoop s.counts s.k (g.priority node) (1 - g.owner node) pms1
          (g.adj node) tmp1 s.best (-1)).2.1
        (minProgLoop s'.counts s.k (g.priority node) (1 - g.owner node) pms1'
          (g.adj node) tmp1' s'.best (-1)).2.1 := by
      rcases hmin.2 with h | h
      · exact absurd h (minProgLoop_bestTo_ne _ _ _ _ _ _ _ _ _ (Or.inr hadjne))
      · exact h
    have hless := pm_less_congr s.counts s'.counts s.k (pms1 node) (pms1' node) _ _
      (g.priority node) (1 - g.owner node) hpl1 hk2 hc
      (hpms node hnode _ hpl1) hbe
    by_cases hcond : pm_less s.counts s.k (pms1 node)
        (minProgLoop s.counts s.k (g.priority node) (1 - g.owner node) pms1
          (g.adj node) tmp1 s.best (-1)).2.1 (g.priority node) (1 - g.owner node) = true
    · rw [if_pos hcond, if_pos (by rw [← hless]; exact hcond)]
      refine ⟨hmin.1, ?_, ?_⟩
      · dsimp only
        apply obsEq_upd_map g.n s.k node _ _ _ _ hpms
        intro q hq
        exact pm_copy_obsEq s.k (1 - g.owner node) q _ _ _ _ hpl1 hq hk2
          (hpms node hnode q hq) hbe
      · intro v hv
        dsimp only
        by_cases hvn : v = node
        · subst hvn
          rw [upd_same, upd_same, hmin.1]
        · rw [upd_ne _ _ _ _ hvn, upd_ne _ _ _ _ hvn, hstr v hv]
    · rw [if_neg hcond, if_neg (by rw [← hless]; exact hcond)]
      refine ⟨rfl, hpms, ?_⟩
      intro v hv
      dsimp only
      by_cases hvn : v = node
      · subst hvn
        rw [upd_same, upd_same, hmin.1]
      · rw [upd_ne _ _ _ _ hvn, upd_ne _ _ _ _ hvn, hstr v hv]
  · have hguard' : ¬(pms1' node (1 - g.owner node) ≠ -1 ∧
        (target = -1 ∨ target = s'.strategy node)) := by
      intro h
      refine hguard ⟨fun hx => h.1 (hopp.mp hx), ?_⟩
      rw [← hstr node hnode]
      exact h.2
    rw [if_neg hguard, if_neg hguard']
    exact ⟨rfl, hpms, fun v hv => hstr v hv⟩

/-- `lift` never touches the dirty bits. -/
theorem lift_dirty (g : Game) (s : St) (node : Nat) (target : Int) :
    ((lift g s node target).1).dirty = s.dirty := by
  rw [lift]
  split
  · rfl
  · rfl

/-- `lift` never touches the queue. -/
theorem lift_todo (g : Game) (s : St) (node : Nat) (target : Int) :
    ((lift g s node target).1).todo = s.todo := by
  rw [lift]
  split
  · rfl
  · rfl

/-- The flag, measures, strategy and lift counter of `lift` are
observationally congruent. -/
theorem lift_obs_congr (g : Game) (s s' : St) (node : Nat) (target : Int)
    (hk : s'.k = s.k) (hk2 : 2 ≤ s.k)
    (hc : ∀ j, j < s.k → s.counts j = s'.counts j)
    (hpms : ∀ v, v < g.n → ∀ q, q < 2 → obsEq s.k q (s.pms v) (s'.pms v))
    (hstr : ∀ v, v < g.n → s'.strategy v = s.strategy v)
    (hlc : s'.liftCount = s.liftCount)
    (hnode : node < g.n) (howner : g.owner node < 2)
    (hadjne : g.adj node ≠ []) (hrange : ∀ t ∈ g.adj node, t < g.n)
    (htarget : target ≠ -1 → target.toNat < g.n) :
    (lift g s node target).2 = (lift g s' node target).2 ∧
    (∀ v, v < g.n → ∀ q, q < 2 →
      obsEq s.k q (((lift g s node target).1).pms v) (((lift g s' node target).1).pms v)) ∧
    (∀ v, v < g.n →
      ((lift g s' node target).1).strategy v = ((lift g s node target).1).strategy v) ∧
    ((lift g s' node target).1).liftCount = ((lift g s node target).1).liftCount := by
  have h0 := obsEq_top s.k 0 (s.pms node) (s'.pms node) (by omega) hk2
    (hpms node hnode 0 (by omega))
  have h1 := obsEq_top s.k 1 (s.pms node) (s'.pms node) (by omega) hk2
    (hpms node hnode 1 (by omega))
  obtain ⟨hoflag, hopms⟩ := liftOwnerAttempt_congr g s s' node target hk hk2 hc hpms
    hnode howner hrange htarget
  obtain ⟨hmflag, hmpms, hmstrat⟩ := liftOppAttempt_congr g s s' node target
    (liftOwnerAttempt g s node target).1 (liftOwnerAttempt g s' node target).1
    (liftOwnerAttempt g s node target).2.1 (liftOwnerAttempt g s' node target).2.1
    hk hk2 hc hopms hstr hnode howner hadjne hrange
  rw [lift, lift]
  by_cases hbt : s.pms node 0 = -1 ∧ s.pms node 1 = -1
  · rw [if_pos hbt, if_pos ⟨h0.mp hbt.1, h1.mp hbt.2⟩]
    exact ⟨rfl, hpms, hstr, hlc⟩
  · rw [if_neg hbt, if_neg (fun hx => hbt ⟨h0.mpr hx.1, h1.mpr hx.2⟩)]
    dsimp only
    rw [hoflag, hmflag, hlc]
    exact ⟨rfl, hmpms, hmstrat, rfl⟩

/-- One `lift` call preserves the observational state relation and yields
equal success flags. -/
theorem lift_congr (g : Game) (s s' : St) (node : Nat) (target : Int)
    (hObs : ObsSt g s s') (hnode : node < g.n) (howner : g.owner node < 2)
    (hadjne : g.adj node ≠ []) (hrange : ∀ t ∈ g.adj node, t < g.n)
    (htarget : target ≠ -1 → target.toNat < g.n) :
    ObsSt g (lift g s node target).1 (lift g s' node target).1 ∧
    (lift g s node target).2 = (lift g s' node target).2 := by
  obtain ⟨hk, hk2, hpms, hstrat, hcounts, hdirty, htodo, htb, hlc⟩ := hObs
  have hc : ∀ j, j < s.k → s.counts j = s'.counts j := fun j hj => (hcounts j hj).symm
  obtain ⟨hflag, hpmsO, hstratO, hlcO⟩ := lift_obs_congr g s s' node target hk hk2 hc hpms
    hstrat hlc hnode howner hadjne hrange htarget
  have hkO : ((lift g s node target).1).k = s.k := lift_k g s node target
  have hkO' : ((lift g s' node target).1).k = s'.k := lift_k g s' node target
  refine ⟨⟨by rw [hkO, hkO', hk], by rw [hkO]; exact hk2, ?_, ?_, ?_, ?_, ?_, ?_, ?_⟩,
    hflag⟩
  · rw [hkO]
    exact hpmsO
  · exact hstratO
  · rw [hkO]
    intro j hj
    rw [lift_counts_char g s node target howner hadjne j,
      lift_counts_char g s' node target howner hadjne j]
    have hin := obsEq_top s.k (j % 2) (s.pms node) (s'.pms node) (by omega) hk2
      (hpms node hnode (j % 2) (by omega))
    have hout := obsEq_top s.k (j % 2) (((lift g s node target).1).pms node)
      (((lift g s' node target).1).pms node) (by omega) hk2
      (hpmsO node hnode (j % 2) (by omega))
    by_cases hcd : j = g.priority node ∧ s.pms node (j % 2) ≠ -1 ∧
        ((lift g s node target).1).pms node (j % 2) = -1
    · rw [if_pos hcd, if_pos ⟨hcd.1, fun hx => hcd.2.1 (hin.mpr hx), hout.mp hcd.2.2⟩,
        hcounts j hj]
    · rw [if_neg hcd, if_neg (fun hx =>
        hcd ⟨hx.1, fun hy => hx.2.1 (hin.mp hy), hout.mpr hx.2.2⟩), hcounts j hj]
  · rw [lift_dirty, lift_dirty]
    exact hdirty
  · rw [lift_todo, lift_todo]
    exact htodo
  · rw [lift_todo]
    exact htb
  · exact hlcO

/-- `todo_push` preserves the observational state relation. -/
theorem todo_push_congr (g : Game) (s s' : St) (i : Nat) (hObs : ObsSt g s s')
    (hi : i < g.n) : ObsSt g (todo_push s i) (todo_push s' i) := by
  obtain ⟨hk, hk2, hpms, hstrat, hcounts, hdirty, htodo, htb, hlc⟩ := hObs
  rw [todo_push, todo_push, hdirty i hi]
  by_cases hd : s.dirty i = 0
  · rw [if_pos hd, if_pos hd]
    refine ⟨hk, hk2, hpms, hstrat, hcounts, ?_, ?_, ?_, hlc⟩
    · intro v hv
      dsimp only
      by_cases hvi : v = i
      · subst hvi
        rw [upd_same, upd_same]
      · rw [upd_ne _ _ _ _ hvi, upd_ne _ _ _ _ hvi]
        exact hdirty v hv
    · dsimp only
      rw [htodo]
    · intro x hx
      dsimp only at hx
      rcases List.mem_append.mp hx with h | h
      · exact htb x h
      · rw [List.mem_singleton.mp h]
        exact hi
  · rw [if_neg hd, if_neg hd]
    exact ⟨hk, hk2, hpms, hstrat, hcounts, hdirty, htodo, htb, hlc⟩

/-- `canlift` never touches the unstable bits. -/
theorem canlift_unstable (g : Game) (s : St) (node pl : Nat) :
    ((canlift g s node pl).1).unstable = s.unstable := by
  rw [canlift]
  split
  · rfl
  · dsimp only
    split
    · rfl
    · split
      · rfl
      · rfl

/-- `canlift` is observationally congruent. -/
theorem canlift_congr (g : Game) (s s' : St) (node pl : Nat) (hObs : ObsSt g s s')
    (hnode : node < g.n) (hpl : pl < 2) (hrange : ∀ t ∈ g.adj node, t < g.n) :
    ObsSt g (canlift g s node pl).1 (canlift g s' node pl).1 ∧
    (canlift g s node pl).2 = (canlift g s' node pl).2 := by
  obtain ⟨hk, hk2, hpms, hstrat, hcounts, hdirty, htodo, htb, hlc⟩ := hObs
  have hc : ∀ j, j < s.k → s.counts j = s'.counts j := fun j hj => (hcounts j hj).symm
  have hObs' : ObsSt g s s' := ⟨hk, hk2, hpms, hstrat, hcounts, hdirty, htodo, htb, hlc⟩
  have htop := obsEq_top s.k pl (s.pms node) (s'.pms node) hpl hk2 (hpms node hnode pl hpl)
  rw [canlift, canlift, hk]
  by_cases hg1 : s.pms node pl = -1
  · rw [if_pos hg1, if_pos (htop.mp hg1)]
    exact ⟨hObs', rfl⟩
  · rw [if_neg hg1, if_neg (fun h => hg1 (htop.mpr h))]
    by_cases hown : g.owner node = pl
    · rw [if_pos hown, if_pos hown]
      dsimp only
      have hloop := canliftOwnerLoop_congr s.counts s'.counts s.k (s.pms node)
        (s'.pms node) (g.priority node) pl s.pms s'.pms hpl hk2 hc
        (hpms node hnode pl hpl) (g.adj node) s.tmp s'.tmp
        (fun t ht => hpms t (hrange t ht) pl hpl)
      exact ⟨⟨rfl, hk2, hpms, hstrat, hcounts, hdirty, htodo, htb, hlc⟩, hloop⟩
    · rw [if_neg hown, if_neg hown]
      dsimp only
      have hmin := minProgLoop_congr s.counts s'.counts s.k (g.priority node) pl
        s.pms s'.pms hpl hk2 hc (g.adj node) s.tmp s'.tmp s.best s'.best (-1)
        (fun t ht => hpms t (hrange t ht) pl hpl) (Or.inl rfl)
      by_cases hflag : (minProgLoop s.counts s.k (g.priority node) pl s.pms (g.adj node)
          s.tmp s.best (-1)).2.2 = -1
      · rw [if_pos hflag, if_pos (by rw [← hmin.1]; exact hflag)]
        exact ⟨⟨rfl, hk2, hpms, hstrat, hcounts, hdirty, htodo, htb, hlc⟩, rfl⟩
      · rw [if_neg hflag, if_neg (by rw [← hmin.1]; exact hflag)]
        have hbe := hmin.2.resolve_left hflag
        refine ⟨⟨rfl, hk2, hpms, hstrat, hcounts, hdirty, htodo, htb, hlc⟩, ?_⟩
        dsimp only
        rw [pm_less_congr s.counts s'.counts s.k (s.pms node) (s'.pms node) _ _
          (g.priority node) pl hpl hk2 hc (hpms node hnode pl hpl) hbe]

/-- The relaxation edge scan preserves the observational relation. -/
theorem relaxPredsEdges_congr (g : Game) (n u : Nat)
    (howner : ∀ v, v < g.n → g.owner v < 2) (hadj : ∀ v, v < g.n → g.adj v ≠ [])
    (hrange : ∀ v, v < g.n → ∀ t ∈ g.adj v, t < g.n)
    (hu : u < g.n) (hn : n < g.n) :
    ∀ (l : List Nat) (s s' : St), ObsSt g s s' →
      ObsSt g (relaxPredsEdges g n u l s) (relaxPredsEdges g n u l s') := by
  intro l
  induction l with
  | nil =>
      intro s s' h
      exact h
  | cons t ts ih =>
      intro s s' h
      rw [relaxPredsEdges, relaxPredsEdges]
      by_cases htn : t = n
      · rw [if_pos htn, if_pos htn]
        dsimp only
        obtain ⟨hObs2, hflag⟩ := lift_congr g s s' u (Int.ofNat n) h hu (howner u hu)
          (hadj u hu) (hrange u hu) (fun _ => by simpa using hn)
        apply ih
        by_cases hr : (lift g s u (Int.ofNat n)).2 = true
        · rw [if_pos hr, if_pos (by rw [← hflag]; exact hr)]
          exact todo_push_congr g _ _ u hObs2 hu
        · rw [if_neg hr, if_neg (by rw [← hflag]; exact hr)]
          exact hObs2
      · rw [if_neg htn, if_neg htn]
        exact ih s s' h

/-- The relaxation predecessor scan preserves the observational
relation. -/
theorem relaxPreds_congr (g : Game) (n : Nat)
    (howner : ∀ v, v < g.n → g.owner v < 2) (hadj : ∀ v, v < g.n → g.adj v ≠ [])
    (hrange : ∀ v, v < g.n → ∀ t ∈ g.adj v, t < g.n) (hn : n < g.n) :
    ∀ (l : List Nat), (∀ u ∈ l, u < g.n) → ∀ (s s' : St), ObsSt g s s' →
      ObsSt g (relaxPreds g n l s) (relaxPreds g n l s') := by
  intro l
  induction l with
  | nil =>
      intro _ s s' h
      exact h
  | cons u us ih =>
      intro hl s s' h
      rw [relaxPreds, relaxPreds]
      exact ih (fun x hx => hl x (List.mem_cons_of_mem u hx)) _ _
        (relaxPredsEdges_congr g n u howner hadj hrange
          (hl u (List.mem_cons_self u us)) hn (g.adj u) s s' h)

/-- The seeding loop preserves the observational relation. -/
theorem initLoop_congr (g : Game)
    (howner : ∀ v, v < g.n → g.owner v < 2) (hadj : ∀ v, v < g.n → g.adj v ≠ [])
    (hrange : ∀ v, v < g.n → ∀ t ∈ g.adj v, t < g.n) :
    ∀ m : Nat, m ≤ g.n → ∀ (s s' : St), ObsSt g s s' →
      ObsSt g (initLoop g m s) (initLoop g m s') := by
  intro m
  induction m with
  | zero =>
      intro _ s s' h
      exact h
  | succ i ih =>
      intro hm s s' h
      have hi : i < g.n := hm
      rw [initLoop, initLoop]
      obtain ⟨hObs2, hflag⟩ := lift_congr g s s' i (-1) h hi (howner i hi)
        (hadj i hi) (hrange i hi) (fun hne => absurd rfl hne)
      apply ih (by omega)
      by_cases hr : (lift g s i (-1)).2 = true
      · rw [if_pos hr, if_pos (by rw [← hflag]; exact hr)]
        exact relaxPreds_congr g i howner hadj hrange hi (List.range g.n)
          (fun x hx => List.mem_range.mp hx) _ _ hObs2
      · rw [if_neg hr, if_neg (by rw [← hflag]; exact hr)]
        exact hObs2

/-- The seeding loop of `update` is observationally congruent and
equalizes the unstable bits of the processed vertices. -/
theorem updateSeedLoop_congr (g : Game) (pl : Nat) (hpl : pl < 2)
    (hrange : ∀ v, v < g.n → ∀ t ∈ g.adj v, t < g.n) :
    ∀ (l : List Nat) (s s' : St) (q : List Nat),
      (∀ i ∈ l, i < g.n) → ObsSt g s s' →
      (∀ v, v < g.n → v ∉ l → s'.unstable v = s.unstable v) →
      ObsSt g (updateSeedLoop g pl l s q).1 (updateSeedLoop g pl l s' q).1 ∧
      (updateSeedLoop g pl l s q).2 = (updateSeedLoop g pl l s' q).2 ∧
      (∀ v, v < g.n →
        ((updateSeedLoop g pl l s' q).1).unstable v
          = ((updateSeedLoop g pl l s q).1).unstable v) := by
  intro l
  induction l with
  | nil =>
      intro s s' q _ hObs hun
      exact ⟨hObs, rfl, fun v hv => hun v hv (List.not_mem_nil v)⟩
  | cons i is ih =>
      intro s s' q hl hObs hun
      have hi : i < g.n := hl i (List.mem_cons_self i is)
      have hsub : ∀ x ∈ is, x < g.n := fun x hx => hl x (List.mem_cons_of_mem i hx)
      obtain ⟨hk, hk2, hpms, hstrat, hcounts, hdirty, htodo, htb, hlc⟩ := hObs
      rw [updateSeedLoop, updateSeedLoop]
      dsimp only
      have htop := obsEq_top s.k pl (s.pms i) (s'.pms i) hpl hk2 (hpms i hi pl hpl)
      by_cases hg1 : s.pms i pl = -1
      · rw [if_pos hg1, if_pos (htop.mp hg1)]
        apply ih _ _ _ hsub
        · exact ⟨hk, hk2, hpms, hstrat, hcounts, hdirty, htodo, htb, hlc⟩
        · intro v hv hvis
          dsimp only
          by_cases hvi : v = i
          · subst hvi
            rw [upd_same, upd_same]
          · rw [upd_ne _ _ _ _ hvi, upd_ne _ _ _ _ hvi, upd_ne _ _ _ _ hvi,
              upd_ne _ _ _ _ hvi]
            exact hun v hv (by simp [hvi, hvis])
      · rw [if_neg hg1, if_neg (fun h => hg1 (htop.mpr h))]
        obtain ⟨hObsR, hflag⟩ := canlift_congr g { s with unstable := upd s.unstable i 0 }
          { s' with unstable := upd s'.unstable i 0 } i pl
          ⟨hk, hk2, hpms, hstrat, hcounts, hdirty, htodo, htb, hlc⟩ hi hpl (hrange i hi)
        have hcu := canlift_unstable g { s with unstable := upd s.unstable i 0 } i pl
        have hcu' := canlift_unstable g { s' with unstable := upd s'.unstable i 0 } i pl
        by_cases hcl : (canlift g { s with unstable := upd s.unstable i 0 } i pl).2 = true
        · rw [if_pos hcl, if_pos (by rw [← hflag]; exact hcl)]
          obtain ⟨hkR, hk2R, hpmsR, hstratR, hcountsR, hdirtyR, htodoR, htbR, hlcR⟩ :=
            hObsR
          apply ih _ _ _ hsub
          · exact ⟨hkR, hk2R, hpmsR, hstratR, hcountsR, hdirtyR, htodoR, htbR, hlcR⟩
          · intro v hv hvis
            dsimp only
            by_cases hvi : v = i
            · subst hvi
              rw [upd_same, upd_same]
            · rw [upd_ne _ _ _ _ hvi, upd_ne _ _ _ _ hvi, hcu, hcu']
              dsimp only
              rw [upd_ne _ _ _ _ hvi, upd_ne _ _ _ _ hvi]
              exact hun v hv (by simp [hvi, hvis])
        · rw [if_neg hcl, if_neg (by rw [← hflag]; exact hcl)]
          apply ih _ _ _ hsub hObsR
          intro v hv hvis
          rw [hcu, hcu']
          dsimp only
          by_cases hvi : v = i
          · subst hvi
            rw [upd_same, upd_same]
          · rw [upd_ne _ _ _ _ hvi, upd_ne _ _ _ _ hvi]
            exact hun v hv (by simp [hvi, hvis])

/-- One propagation examination is observationally congruent. -/
theorem updatePropBody_congr (g : Game) (pl : Nat) (hpl : pl < 2)
    (hrange : ∀ v, v < g.n → ∀ t ∈ g.adj v, t < g.n)
    (m : Nat) (hm : m < g.n) (s s' : St) (q : List Nat)
    (hObs : ObsSt g s s') (hun : ∀ v, v < g.n → s'.unstable v = s.unstable v) :
    ObsSt g (updatePropBody g pl m s q).1 (updatePropBody g pl m s' q).1 ∧
    (updatePropBody g pl m s q).2 = (updatePropBody g pl m s' q).2 ∧
    (∀ v, v < g.n → ((updatePropBody g pl m s' q).1).unstable v
        = ((updatePropBody g pl m s q).1).unstable v) := by
  obtain ⟨hk, hk2, hpms, hstrat, hcounts, hdirty, htodo, htb, hlc⟩ := hObs
  have hc : ∀ j, j < s.k → s.counts j = s'.counts j := fun j hj => (hcounts j hj).symm
  rw [updatePropBody, updatePropBody, hk, hun m hm]
  by_cases h1 : s.unstable m ≠ 0
  · rw [if_pos h1, if_pos h1]
    exact ⟨⟨hk, hk2, hpms, hstrat, hcounts, hdirty, htodo, htb, hlc⟩, rfl, hun⟩
  · rw [if_neg h1, if_neg h1]
    by_cases h2 : g.owner m ≠ pl
    · rw [if_pos h2, if_pos h2]
      dsimp only
      have hsuccs : (g.adj m).filter (fun t => s'.unstable t = 0)
          = (g.adj m).filter (fun t => s.unstable t = 0) := by
        apply List.filter_congr
        intro t ht
        rw [hun t (hrange m hm t ht)]
      rw [hsuccs]
      have hmin := minProgLoop_congr s.counts s'.counts s.k (g.priority m) pl s.pms
        s'.pms hpl hk2 hc ((g.adj m).filter (fun t => s.unstable t = 0)) s.tmp s'.tmp
        s.best s'.best (-1)
        (fun t ht => hpms t (hrange m hm t (List.mem_of_mem_filter ht)) pl hpl)
        (Or.inl rfl)
      by_cases hflag : (minProgLoop s.counts s.k (g.priority m) pl s.pms
          ((g.adj m).filter (fun t => s.unstable t = 0)) s.tmp s.best (-1)).2.2 = -1
      · have hflag' : (minProgLoop s'.counts s.k (g.priority m) pl s'.pms
            ((g.adj m).filter (fun t => s.unstable t = 0)) s'.tmp s'.best (-1)).2.2
              = -1 := by
          rw [← hmin.1]
          exact hflag
        rw [if_pos hflag, if_pos hflag']
        exact ⟨⟨rfl, hk2, hpms, hstrat, hcounts, hdirty, htodo, htb, hlc⟩, rfl, hun⟩
      · have hflag' : ¬(minProgLoop s'.counts s.k (g.priority m) pl s'.pms
            ((g.adj m).filter (fun t => s.unstable t = 0)) s'.tmp s'.best (-1)).2.2
              = -1 := by
          rw [← hmin.1]
          exact hflag
        rw [if_neg hflag, if_neg hflag']
        have hbe := hmin.2.resolve_left hflag
        have hless := pm_less_congr s.counts s'.counts s.k (s.pms m) (s'.pms m) _ _
          (g.priority m) pl hpl hk2 hc (hpms m hm pl hpl) hbe
        by_cases h3 : pm_less s.counts s.k (s.pms m)
            (minProgLoop s.counts s.k (g.priority m) pl s.pms
              ((g.adj m).filter (fun t => s.unstable t = 0)) s.tmp s.best (-1)).2.1
            (g.priority m) pl = true
        · have h3' : pm_less s'.counts s.k (s'.pms m)
              (minProgLoop s'.counts s.k (g.priority m) pl s'.pms
                ((g.adj m).filter (fun t => s.unstable t = 0)) s'.tmp s'.best (-1)).2.1
              (g.priority m) pl = true := by
            rw [← hless]
            exact h3
          rw [if_pos h3, if_pos h3']
          exact ⟨⟨rfl, hk2, hpms, hstrat, hcounts, hdirty, htodo, htb, hlc⟩, rfl, hun⟩
        · have h3' : ¬pm_less s'.counts s.k (s'.pms m)
              (minProgLoop s'.counts s.k (g.priority m) pl s'.pms
                ((g.adj m).filter (fun t => s.unstable t = 0)) s'.tmp s'.best (-1)).2.1
              (g.priority m) pl = true := by
            rw [← hless]
            exact h3
          rw [if_neg h3, if_neg h3']
          refine ⟨⟨rfl, hk2, hpms, hstrat, hcounts, hdirty, htodo, htb, hlc⟩, rfl, ?_⟩
          intro v hv
          dsimp only
          by_cases hvm : v = m
          · subst hvm
            rw [upd_same, upd_same]
          · rw [upd_ne _ _ _ _ hvm, upd_ne _ _ _ _ hvm]
            exact hun v hv
    · rw [if_neg h2, if_neg h2]
      exact ⟨⟨hk, hk2, hpms, hstrat, hcounts, hdirty, htodo, htb, hlc⟩, rfl, hun⟩

/-- The propagation edge scan is observationally congruent. -/
theorem updatePropEdges_congr (g : Game) (pl : Nat) (hpl : pl < 2)
    (hrange : ∀ v, v < g.n → ∀ t ∈ g.adj v, t < g.n) (n u : Nat) (hu : u < g.n) :
    ∀ (l : List Nat) (s s' : St) (q : List Nat),
      ObsSt g s s' → (∀ v, v < g.n → s'.unstable v = s.unstable v) →
      ObsSt g (updatePropEdges g pl n u l s q).1 (updatePropEdges g pl n u l s' q).1 ∧
      (updatePropEdges g pl n u l s q).2 = (updatePropEdges g pl n u l s' q).2 ∧
      (∀ v, v < g.n → ((updatePropEdges g pl n u l s' q).1).unstable v
          = ((updatePropEdges g pl n u l s q).1).unstable v) := by
  intro l
  induction l with
  | nil =>
      intro s s' q hObs hun
      exact ⟨hObs, rfl, hun⟩
  | cons t ts ih =>
      intro s s' q hObs hun
      rw [updatePropEdges, updatePropEdges]
      by_cases htn : t = n
      · rw [if_pos htn, if_pos htn]
        dsimp only
        obtain ⟨hObsB, hqB, hunB⟩ := updatePropBody_congr g pl hpl hrange u hu s s' q
          hObs hun
        rw [hqB]
        exact ih _ _ _ hObsB hunB
      · rw [if_neg htn, if_neg htn]
        exact ih s s' q hObs hun

/-- The propagation vertex scan is observationally congruent. -/
theorem updatePropScan_congr (g : Game) (pl : Nat) (hpl : pl < 2)
    (hrange : ∀ v, v < g.n → ∀ t ∈ g.adj v, t < g.n) (n : Nat) :
    ∀ (l : List Nat), (∀ u ∈ l, u < g.n) → ∀ (s s' : St) (q : List Nat),
      ObsSt g s s' → (∀ v, v < g.n → s'.unstable v = s.unstable v) →
      ObsSt g (updatePropScan g pl n l s q).1 (updatePropScan g pl n l s' q).1 ∧
      (updatePropScan g pl n l s q).2 = (updatePropScan g pl n l s' q).2 ∧
      (∀ v, v < g.n → ((updatePropScan g pl n l s' q).1).unstable v
          = ((updatePropScan g pl n l s q).1).unstable v) := by
  intro l
  induction l with
  | nil =>
      intro _ s s' q hObs hun
      exact ⟨hObs, rfl, hun⟩
  | cons u us ih =>
      intro hl s s' q hObs hun
      rw [updatePropScan, updatePropScan]
      obtain ⟨hObsE, hqE, hunE⟩ := updatePropEdges_congr g pl hpl hrange n u
        (hl u (List.mem_cons_self u us)) (g.adj u) s s' q hObs hun
      rw [hqE]
      exact ih (fun x hx => hl x (List.mem_cons_of_mem u hx)) _ _ _ hObsE hunE

/-- The secondary worklist loop of `update` is observationally
congruent: it fails on both runs or succeeds on both with
observationally equal states and equal unstable bits. -/
theorem updatePropLoop_congr (g : Game) (pl : Nat) (hpl : pl < 2)
    (hrange : ∀ v, v < g.n → ∀ t ∈ g.adj v, t < g.n) :
    ∀ (fuel : Nat) (s s' : St) (q : List Nat),
      ObsSt g s s' → (∀ v, v < g.n → s'.unstable v = s.unstable v) →
      (updatePropLoop g pl fuel s q = none ∧ updatePropLoop g pl fuel s' q = none) ∨
      (∃ s1 s1', updatePropLoop g pl fuel s q = some s1 ∧
        updatePropLoop g pl fuel s' q = some s1' ∧ ObsSt g s1 s1' ∧
        (∀ v, v < g.n → s1'.unstable v = s1.unstable v)) := by
  intro fuel
  induction fuel with
  | zero =>
      intro s s' q _ _
      exact Or.inl ⟨rfl, rfl⟩
  | succ fuel ih =>
      intro s s' q hObs hun
      rw [updatePropLoop.eq_def, updatePropLoop.eq_def]
      cases q with
      | nil =>
          exact Or.inr ⟨s, s', rfl, rfl, hObs, hun⟩
      | cons n rest =>
          dsimp only
          obtain ⟨hObsS, hqS, hunS⟩ := updatePropScan_congr g pl hpl hrange n
            (List.range g.n) (fun u hu => List.mem_range.mp hu) s s' rest hObs hun
          rw [hqS]
          exact ih _ _ _ hObsS hunS

/-- The demotion loop of `update` is observationally congruent. -/
theorem updateFinalLoop_congr (g : Game) (pl : Nat) (hpl : pl < 2) :
    ∀ (l : List Nat), (∀ i ∈ l, i < g.n) → ∀ (s s' : St),
      ObsSt g s s' → (∀ v, v < g.n → s'.unstable v = s.unstable v) →
      ObsSt g (updateFinalLoop g pl l s) (updateFinalLoop g pl l s') := by
  intro l
  induction l with
  | nil =>
      intro _ s s' hObs _
      exact hObs
  | cons i is ih =>
      intro hl s s' hObs hun
      have hi : i < g.n := hl i (List.mem_cons_self i is)
      have hsub : ∀ x ∈ is, x < g.n := fun x hx => hl x (List.mem_cons_of_mem i hx)
      obtain ⟨hk, hk2, hpms, hstrat, hcounts, hdirty, htodo, htb, hlc⟩ := hObs
      have hpl1 : 1 - pl < 2 := by omega
      have htop := obsEq_top s.k (1 - pl) (s.pms i) (s'.pms i) hpl1 hk2
        (hpms i hi (1 - pl) hpl1)
      rw [updateFinalLoop, updateFinalLoop, hun i hi]
      by_cases hcond : s.unstable i = 0 ∧ s.pms i (1 - pl) ≠ -1 ∧ g.priority i % 2 ≠ pl
      · rw [if_pos hcond,
          if_pos ⟨hcond.1, fun h => hcond.2.1 (htop.mpr h), hcond.2.2⟩]
        have hRec : ObsSt g
            { s with
                counts := upd s.counts (g.priority i) (s.counts (g.priority i) - 1)
                pms := upd s.pms i (upd (s.pms i) (1 - pl) (-1)) }
            { s' with
                counts := upd s'.counts (g.priority i) (s'.counts (g.priority i) - 1)
                pms := upd s'.pms i (upd (s'.pms i) (1 - pl) (-1)) } := by
          refine ⟨hk, hk2, ?_, hstrat, ?_, hdirty, htodo, htb, hlc⟩
          · apply obsEq_upd_map g.n s.k i _ _ _ _ hpms
            intro q hq
            by_cases hq1 : q = 1 - pl
            · subst hq1
              exact Or.inl ⟨upd_same _ _ _, upd_same _ _ _⟩
            · rcases hpms i hi q hq with ⟨ha, hb⟩ | hv
              · refine Or.inl ⟨?_, ?_⟩
                · rw [upd_ne _ _ _ _ hq1]
                  exact ha
                · rw [upd_ne _ _ _ _ hq1]
                  exact hb
              · refine Or.inr ?_
                intro j hj hjp
                have hjne : j ≠ 1 - pl := by omega
                rw [upd_ne _ _ _ _ hjne, upd_ne _ _ _ _ hjne]
                exact hv j hj hjp
          · intro j hj
            dsimp only
            by_cases hjp : j = g.priority i
            · subst hjp
              rw [upd_same, upd_same, hcounts _ hj]
            · rw [upd_ne _ _ _ _ hjp, upd_ne _ _ _ _ hjp]
              exact hcounts j hj
        apply ih hsub _ _ (todo_push_congr g _ _ i hRec hi)
        intro v hv
        rw [todo_push_unstable, todo_push_unstable]
        dsimp only
        exact hun v hv
      · rw [if_neg hcond, if_neg (fun h =>
          hcond ⟨h.1, fun hx => h.2.1 (htop.mp hx), h.2.2⟩)]
        exact ih hsub _ _ ⟨hk, hk2, hpms, hstrat, hcounts, hdirty, htodo, htb, hlc⟩ hun

/-- A stabilization pass is observationally congruent: it fails on both
runs or succeeds on both with observationally equal states. -/
theorem update_congr (g : Game) (pl ufuel : Nat) (s s' : St) (hpl : pl < 2)
    (hrange : ∀ v, v < g.n → ∀ t ∈ g.adj v, t < g.n) (hObs : ObsSt g s s') :
    (update g pl ufuel s = none ∧ update g pl ufuel s' = none) ∨
    (∃ t t', update g pl ufuel s = some t ∧ update g pl ufuel s' = some t' ∧
      ObsSt g t t') := by
  obtain ⟨hObsS, hqS, hunS⟩ := updateSeedLoop_congr g pl hpl hrange (List.range g.n)
    s s' [] (fun i hi => List.mem_range.mp hi) hObs
    (fun v hv hnot => absurd (List.mem_range.mpr hv) hnot)
  rw [update, update, hqS]
  rcases updatePropLoop_congr g pl hpl hrange ufuel _ _
      (updateSeedLoop g pl (List.range g.n) s' []).2 hObsS hunS
    with ⟨hn, hn'⟩ | ⟨s1, s1', hs1, hs1', hObs1, hun1⟩
  · rw [hn, hn']
    exact Or.inl ⟨rfl, rfl⟩
  · rw [hs1, hs1']
    exact Or.inr ⟨_, _, rfl, rfl,
      updateFinalLoop_congr g pl hpl (List.range g.n)
        (fun i hi => List.mem_range.mp hi) s1 s1' hObs1 hun1⟩

/-- The main worklist loop is observationally congruent: both runs run
out of fuel, or both converge to observationally equal states. -/
theorem mainLoop_congr (g : Game) (ufuel : Nat)
    (howner : ∀ v, v < g.n → g.owner v < 2) (hadj : ∀ v, v < g.n → g.adj v ≠ [])
    (hrange : ∀ v, v < g.n → ∀ t ∈ g.adj v, t < g.n) :
    ∀ (fuel : Nat) (lastUpdate : Int) (s s' : St), ObsSt g s s' →
      (mainLoop g ufuel fuel lastUpdate s = none ∧
        mainLoop g ufuel fuel lastUpdate s' = none) ∨
      (∃ t t', mainLoop g ufuel fuel lastUpdate s = some t ∧
        mainLoop g ufuel fuel lastUpdate s' = some t' ∧ ObsSt g t t') := by
  intro fuel
  induction fuel with
  | zero =>
      intro lu s s' hObs
      obtain ⟨hk, hk2, hpms, hstrat, hcounts, hdirty, htodo, htb, hlc⟩ := hObs
      rw [mainLoop, mainLoop, htodo]
      by_cases ht : s.todo = []
      · rw [if_pos ht, if_pos ht]
        exact Or.inr ⟨s, s', rfl, rfl,
          ⟨hk, hk2, hpms, hstrat, hcounts, hdirty, htodo, htb, hlc⟩⟩
      · rw [if_neg ht, if_neg ht]
        exact Or.inl ⟨rfl, rfl⟩
  | succ fuel ih =>
      intro lu s s' hObs
      obtain ⟨hk, hk2, hpms, hstrat, hcounts, hdirty, htodo, htb, hlc⟩ := hObs
      rw [mainLoop, mainLoop, htodo]
      cases hq : s.todo with
      | nil =>
          exact Or.inr ⟨s, s', rfl, rfl,
            ⟨hk, hk2, hpms, hstrat, hcounts, hdirty, htodo, htb, hlc⟩⟩
      | cons n rest =>
          dsimp only
          have hn : n < g.n := htb n (hq ▸ List.mem_cons_self n rest)
          have hObs0 : ObsSt g { s with todo := rest, dirty := upd s.dirty n 0 }
              { s' with todo := rest, dirty := upd s'.dirty n 0 } := by
            refine ⟨hk, hk2, hpms, hstrat, hcounts, ?_, rfl, ?_, hlc⟩
            · intro v hv
              dsimp only
              by_cases hvn : v = n
              · subst hvn
                rw [upd_same, upd_same]
              · rw [upd_ne _ _ _ _ hvn, upd_ne _ _ _ _ hvn]
                exact hdirty v hv
            · intro x hx
              dsimp only at hx
              exact htb x (hq ▸ List.mem_cons_of_mem n hx)
          have hObs1 := relaxPreds_congr g n howner hadj hrange hn (List.range g.n)
            (fun u hu => List.mem_range.mp hu) _ _ hObs0
          obtain ⟨hk1, hk21, hpms1, hstrat1, hcounts1, hdirty1, htodo1, htb1, hlc1⟩ :=
            hObs1
          rw [hlc1]
          by_cases htr : lu + 10 * (g.n : Int) <
              (relaxPreds g n (List.range g.n)
                { s with todo := rest, dirty := upd s.dirty n 0 }).liftCount
          · rw [if_pos htr, if_pos htr]
            rcases update_congr g 0 ufuel _ _ (by omega) hrange
                ⟨hk1, hk21, hpms1, hstrat1, hcounts1, hdirty1, htodo1, htb1, hlc1⟩ with
              ⟨hn0, hn0'⟩ | ⟨t0, t0', h0, h0', hObsT0⟩
            · rw [hn0, hn0']
              exact Or.inl ⟨rfl, rfl⟩
            · rw [h0, h0']
              dsimp only
              rcases update_congr g 1 ufuel t0 t0' (by omega) hrange hObsT0 with
                ⟨hn1, hn1'⟩ | ⟨t1, t1', h1, h1', hObsT1⟩
              · rw [hn1, hn1']
                exact Or.inl ⟨rfl, rfl⟩
              · rw [h1, h1']
                dsimp only
                exact ih _ _ _ hObsT1
          · rw [if_neg htr, if_neg htr]
            exact ih _ _ _
              ⟨hk1, hk21, hpms1, hstrat1, hcounts1, hdirty1, htodo1, htb1, hlc1⟩

/-- Two (re-)initializations are observationally equal: everything the
solver reads is reset; only scratch residue differs. -/
theorem resetState_ObsSt (g : Game) (s0 s1 : St) (h0 : s0.todo = []) (h1 : s1.todo = []) :
    ObsSt g (resetState g s0) (resetState g s1) := by
  refine ⟨rfl, Nat.le_max_right _ _, ?_, ?_, ?_, ?_, ?_, ?_, rfl⟩
  · intro v hv q hq
    refine Or.inr ?_
    intro j hj hjp
    show (if v < g.n ∧ j < max (get_max_priority g + 1) 2 then (0 : Int) else s0.pms v j)
        = (if v < g.n ∧ j < max (get_max_priority g + 1) 2 then (0 : Int) else s1.pms v j)
    rw [if_pos ⟨hv, hj⟩, if_pos ⟨hv, hj⟩]
  · intro v hv
    show (if v < g.n then (-1 : Int) else s1.strategy v)
        = (if v < g.n then (-1 : Int) else s0.strategy v)
    rw [if_pos hv, if_pos hv]
  · intro j hj
    show ((List.range g.n).foldl (fun c v => upd c (g.priority v) (c (g.priority v) + 1))
        (fun i => if i < max (get_max_priority g + 1) 2 then 0 else s1.counts i)) j
      = ((List.range g.n).foldl (fun c v => upd c (g.priority v) (c (g.priority v) + 1))
        (fun i => if i < max (get_max_priority g + 1) 2 then 0 else s0.counts i)) j
    have hj' : j < max (get_max_priority g + 1) 2 := hj
    rw [tally_spec, tally_spec, if_pos hj', if_pos hj']
  · intro v hv
    show (if v < g.n then (0 : Int) else s1.dirty v)
        = (if v < g.n then (0 : Int) else s0.dirty v)
    rw [if_pos hv, if_pos hv]
  · show s1.todo = s0.todo
    rw [h0, h1]
  · intro x hx
    rw [show (resetState g s0).todo = [] from h0] at hx
    exact absurd hx (List.not_mem_nil x)

/-- C9: `solve` is deterministic and independent of the solver object's
carried-over scratch state: on a fixed graph (owners in `{0, 1}`,
out-degree ≥ 1, in-range edge targets) and a fixed enumeration, two runs
from any two solver objects with drained queues — in particular a fresh
object and one reused from an earlier `solve` — converge to the same
winning regions and the same strategy mapping. -/
theorem solve_deterministic (g : Game) (fuel ufuel : Nat) (s0 s1 sA sB : St)
    (howner : ∀ v, v < g.n → g.owner v < 2) (hadj : ∀ v, v < g.n → g.adj v ≠ [])
    (hrange : ∀ v, v < g.n → ∀ t ∈ g.adj v, t < g.n)
    (ht0 : s0.todo = []) (ht1 : s1.todo = [])
    (hA : solveState g fuel ufuel s0 = some sA)
    (hB : solveState g fuel ufuel s1 = some sB) :
    solutionWinners g sA = solutionWinners g sB ∧
    ∀ v, v < g.n → solutionStrategy g sA v = solutionStrategy g sB v := by
  have hinit : ObsSt g (initLoop g g.n (resetState g s0))
      (initLoop g g.n (resetState g s1)) :=
    initLoop_congr g howner hadj hrange g.n (le_refl _) _ _
      (resetState_ObsSt g s0 s1 ht0 ht1)
  rw [solveState] at hA hB
  rcases mainLoop_congr g ufuel howner hadj hrange fuel 0 _ _ hinit with
    ⟨hnn, -⟩ | ⟨t, t', h, h', hObs⟩
  · rw [hA] at hnn
    exact Option.noConfusion hnn
  · rw [h] at hA
    rw [h'] at hB
    injection hA with hA'
    injection hB with hB'
    subst hA'
    subst hB'
    obtain ⟨hk, hk2, hpms, hstrat, hcounts, hdirty, htodo, htb, hlc⟩ := hObs
    have hwin : ∀ v, v < g.n → winnerOf t v = winnerOf t' v := by
      intro v hv
      have hw := obsEq_top t.k 0 (t.pms v) (t'.pms v) (by omega) hk2
        (hpms v hv 0 (by omega))
      rw [winnerOf, winnerOf]
      by_cases h0 : t.pms v 0 = -1
      · rw [if_pos h0, if_pos (hw.mp h0)]
      · rw [if_neg h0, if_neg (fun hx => h0 (hw.mpr hx))]
    constructor
    · rw [solutionWinners, solutionWinners]
      apply List.map_congr_left
      intro v hv
      rw [hwin v (List.mem_range.mp hv)]
    · intro v hv
      rw [solutionStrategy, solutionStrategy, hstrat v hv, hwin v hv]

/-- C9, witness: the one-vertex priority-0 self-loop solved from a fresh
solver object and from one whose scratch arrays carry residue. -/
theorem solve_deterministic_witness :
    solutionWinners gLoop0 ((solveFresh gLoop0 5 5).getD freshState)
        = solutionWinners gLoop0 ((solveState gLoop0 5 5 sScratch).getD freshState) ∧
    ∀ v, v < gLoop0.n →
      solutionStrategy gLoop0 ((solveFresh gLoop0 5 5).getD freshState) v
        = solutionStrategy gLoop0 ((solveState gLoop0 5 5 sScratch).getD freshState) v :=
  solve_deterministic gLoop0 5 5 freshState sScratch
    ((solveFresh gLoop0 5 5).getD freshState)
    ((solveState gLoop0 5 5 sScratch).getD freshState)
    (fun _ _ => show (0 : Nat) < 2 by omega)
    (fun _ _ => List.cons_ne_nil 0 [])
    (fun _ _ t ht => by
      have := List.mem_singleton.mp ht
      omega)
    rfl rfl rfl rfl

/-- C5, witness: the solved one-vertex priority-0 self-loop, where the
owner wins and the strategy entry is the self-loop. -/
theorem strategy_defined_iff_owner_wins_witness :
    ((solutionStrategy gLoop0 ((solveFresh gLoop0 5 5).getD freshState) 0).isSome = true ↔
      gLoop0.owner 0 = winnerOf ((solveFresh gLoop0 5 5).getD freshState) 0) ∧
    ∀ t, solutionStrategy gLoop0 ((solveFresh gLoop0 5 5).getD freshState) 0 = some t →
      t ∈ gLoop0.adj 0 :=
  strategy_defined_iff_owner_wins gLoop0 5 5 freshState
    ((solveFresh gLoop0 5 5).getD freshState)
    (fun _ _ => show (0 : Nat) < 2 by omega) (fun _ _ => List.cons_ne_nil 0 [])
    rfl 0 (by decide)

end GGG
